import Mathlib

/-!
Shallow embedding of the balanced-ternary / proof-of-work core of the
iota.go repository (packages trinary and pow), together with theorems
settling the specification claims about it.

Trits are Go int8 values modelled as integers; Go's fixed-width integer
arithmetic is modelled with explicit wrap-around functions (wrap64, wrap8),
bytes and 32-bit limbs are naturals with explicit `% 2 ^ 32` / `% 256`
reductions, and fallible conversions return Option (none = Go error).
-/

set_option maxRecDepth 2000

namespace Iota

/-- A balanced trit as stored in a Go int8: one of -1, 0, 1. -/
def isTrit (t : ℤ) : Prop := t = -1 ∨ t = 0 ∨ t = 1

instance (t : ℤ) : Decidable (isTrit t) := by unfold isTrit; infer_instance

/-- All members of the slice are valid trits (ValidTrits returning nil). -/
def tritList (l : List ℤ) : Prop := ∀ x ∈ l, isTrit x

instance (l : List ℤ) : Decidable (tritList l) := by unfold tritList; infer_instance

/-- Little-endian balanced-ternary value of a trit slice with exact integer
arithmetic (no word wrap-around): the reference value used in proofs. -/
def pureVal (l : List ℤ) : ℤ := l.foldr (fun d acc => acc * 3 + d) 0

/-- Wrap-around of Go two's-complement int64 arithmetic. -/
def wrap64 (x : ℤ) : ℤ := (x + 2 ^ 63) % 2 ^ 64 - 2 ^ 63

/-- TritsToInt (trinary.go): Horner evaluation `val = val*3 + t[i]` from the
highest index down, in int64 (wrapping) arithmetic. -/
def TritsToInt (t : List ℤ) : ℤ := t.foldr (fun d acc => wrap64 (acc * 3 + d)) 0

/-- Fuelled version of the division loop of IntToTrits on the absolute value:
`remainder := n % 3`; a remainder of 2 (`> MaxTritValue`) becomes digit -1
with the quotient incremented. The fuel only bounds recursion depth; it is
never exhausted when `fuel ≥ n`. -/
def balDigitsAux : ℕ → ℕ → List ℤ
  | 0, _ => []
  | fuel + 1, n =>
    if n = 0 then []
    else if n % 3 = 2 then -1 :: balDigitsAux fuel (n / 3 + 1)
    else ((n % 3 : ℕ) : ℤ) :: balDigitsAux fuel (n / 3)

/-- The digit loop of IntToTrits run on a nonnegative value. -/
def balDigits (n : ℕ) : List ℤ := balDigitsAux n n

/-- Fuelled floor of the base-3 logarithm. -/
def floorLog3Aux : ℕ → ℕ → ℕ
  | 0, _ => 0
  | fuel + 1, n => if n < 3 then 0 else floorLog3Aux fuel (n / 3) + 1

/-- Floor of the base-3 logarithm; models the real-valued expression
`math.Floor(math.Log x / math.Log 3)` used by IntToTrits exactly. -/
def floorLog3 (n : ℕ) : ℕ := floorLog3Aux n n

/-- IntToTrits (trinary.go). The allocated length models the float64
expression `1 + Floor(Log(2*Max(1, Abs value)) / Log 3)` with exact real
arithmetic. The negation `-value` is int64 negation, so `math.MinInt64`
negates to itself (still negative) and the digit loop is skipped there,
leaving the all-zero allocation. -/
def IntToTrits (value : ℤ) : List ℤ :=
  if value = 0 then [0]
  else
    let len := 1 + floorLog3 (2 * max 1 value.natAbs)
    let absoluteValue : ℤ := if value < 0 then wrap64 (-value) else value
    let ds := if 0 < absoluteValue then balDigits absoluteValue.toNat else []
    let dest := ds ++ List.replicate (len - ds.length) 0
    if value < 0 then dest.map (fun x => -x) else dest

theorem pureVal_nil : pureVal [] = 0 := rfl

theorem pureVal_cons (d : ℤ) (l : List ℤ) :
    pureVal (d :: l) = pureVal l * 3 + d := rfl

theorem pureVal_append_replicate_zero (l : List ℤ) (k : ℕ) :
    pureVal (l ++ List.replicate k 0) = pureVal l := by
  induction l with
  | nil =>
    simp only [List.nil_append, pureVal_nil]
    induction k with
    | zero => rfl
    | succ k ih => simp [List.replicate_succ, pureVal_cons, ih]
  | cons d l ih => simp [pureVal_cons, ih]

theorem pureVal_map_neg (l : List ℤ) :
    pureVal (l.map (fun x => -x)) = -pureVal l := by
  induction l with
  | nil => rfl
  | cons d l ih => simp [pureVal_cons, ih]; ring

theorem balDigitsAux_val (fuel : ℕ) :
    ∀ n, n ≤ fuel → pureVal (balDigitsAux fuel n) = n := by
  induction fuel with
  | zero =>
    intro n h
    have hn : n = 0 := Nat.le_zero.mp h
    subst hn; rfl
  | succ f ih =>
    intro n h
    by_cases h0 : n = 0
    · subst h0; simp [balDigitsAux, pureVal]
    · by_cases h2 : n % 3 = 2
      · have hrec : n / 3 + 1 ≤ f := by omega
        simp only [balDigitsAux, h0, h2, if_false, if_true, pureVal_cons,
          ih _ hrec]
        push_cast
        omega
      · have hrec : n / 3 ≤ f := by omega
        simp only [balDigitsAux, h0, h2, if_false, if_true, pureVal_cons,
          ih _ hrec]
        push_cast
        omega

theorem balDigitsAux_trits (fuel : ℕ) :
    ∀ n, tritList (balDigitsAux fuel n) := by
  induction fuel with
  | zero => intro n x hx; simp [balDigitsAux] at hx
  | succ f ih =>
    intro n x hx
    by_cases h0 : n = 0
    · subst h0; simp [balDigitsAux] at hx
    · by_cases h2 : n % 3 = 2
      · simp only [balDigitsAux, h0, h2, if_false, if_true, List.mem_cons] at hx
        rcases hx with rfl | hx
        · exact Or.inl rfl
        · exact ih _ _ hx
      · simp only [balDigitsAux, h0, h2, if_false, if_true, List.mem_cons] at hx
        rcases hx with rfl | hx
        · have : n % 3 = 0 ∨ n % 3 = 1 := by omega
          rcases this with h | h <;> rw [h]
          · exact Or.inr (Or.inl rfl)
          · exact Or.inr (Or.inr rfl)
        · exact ih _ _ hx

theorem balDigits_val (n : ℕ) : pureVal (balDigits n) = n :=
  balDigitsAux_val n n le_rfl

theorem balDigits_trits (n : ℕ) : tritList (balDigits n) :=
  balDigitsAux_trits n n

theorem wrap64_eq_self {x : ℤ} (h1 : -(2 ^ 63) ≤ x) (h2 : x < 2 ^ 63) :
    wrap64 x = x := by
  unfold wrap64
  rw [Int.emod_eq_of_lt (by omega) (by omega)]
  omega

theorem wrap64_congr {a b : ℤ} (h : a % 2 ^ 64 = b % 2 ^ 64) :
    wrap64 a = wrap64 b := by
  unfold wrap64
  have : (a + 2 ^ 63) % 2 ^ 64 = (b + 2 ^ 63) % 2 ^ 64 := by
    rw [Int.add_emod, h, ← Int.add_emod]
  rw [this]

theorem wrap64_emod (x : ℤ) : wrap64 x % 2 ^ 64 = x % 2 ^ 64 := by
  unfold wrap64
  conv_rhs => rw [show x = x + 2 ^ 63 - 2 ^ 63 by ring]
  rw [Int.sub_emod, Int.sub_emod (x + 2 ^ 63), Int.emod_emod_of_dvd]
  exact dvd_refl _

theorem TritsToInt_eq_wrap_pureVal (t : List ℤ) :
    TritsToInt t = wrap64 (pureVal t) := by
  induction t with
  | nil =>
    simp [TritsToInt, pureVal, wrap64]
  | cons d l ih =>
    show wrap64 (TritsToInt l * 3 + d) = _
    rw [ih, pureVal_cons]
    apply wrap64_congr
    have h : wrap64 (pureVal l) ≡ pureVal l [ZMOD (2 : ℤ) ^ 64] :=
      wrap64_emod (pureVal l)
    exact ((h.mul_right 3).add_right d)

theorem pureVal_IntToTrits {v : ℤ} (h1 : -(2 ^ 63) < v) (h2 : v < 2 ^ 63) :
    pureVal (IntToTrits v) = v := by
  unfold IntToTrits
  by_cases h0 : v = 0
  · subst h0; simp [pureVal]
  · simp only [h0, if_false]
    by_cases hneg : v < 0
    · have habs : wrap64 (-v) = -v := wrap64_eq_self (by omega) (by omega)
      have hpos : (0 : ℤ) < -v := by omega
      simp only [hneg, if_true, habs, hpos, pureVal_map_neg,
        pureVal_append_replicate_zero, balDigits_val]
      omega
    · have hpos : 0 < v := by omega
      simp only [hneg, if_false, hpos, if_true,
        pureVal_append_replicate_zero, balDigits_val]
      omega

theorem tritList_IntToTrits (v : ℤ) : tritList (IntToTrits v) := by
  unfold IntToTrits
  by_cases h0 : v = 0
  · subst h0; intro x hx; simp at hx; subst hx; exact Or.inr (Or.inl rfl)
  · simp only [h0, if_false]
    by_cases hneg : v < 0 <;> simp only [hneg, if_true, if_false] <;>
      intro x hx
    · simp only [List.mem_map, List.mem_append, List.mem_replicate] at hx
      obtain ⟨y, hy, rfl⟩ := hx
      rcases hy with hy | hy
      · by_cases hgt : (0 : ℤ) < wrap64 (-v)
        · simp only [hgt, if_true] at hy
          rcases balDigits_trits _ _ hy with h | h | h <;> rw [h]
          · exact Or.inr (Or.inr rfl)
          · exact Or.inr (Or.inl rfl)
          · exact Or.inl rfl
        · simp [hgt] at hy
      · rw [hy.2]; exact Or.inr (Or.inl rfl)
    · simp only [List.mem_append, List.mem_replicate] at hx
      rcases hx with hx | hx
      · by_cases hgt : (0 : ℤ) < v
        · simp only [hgt, if_true] at hx
          exact balDigits_trits _ _ hx
        · simp [hgt] at hx
      · rw [hx.2]; exact Or.inr (Or.inl rfl)

set_option maxRecDepth 20000 in
/-- C2 counterexample: at `v = math.MinInt64 = -2^63` the int64 negation
inside IntToTrits wraps to the same negative value, the digit loop never
runs, the result is all zeros, and the round trip yields 0, not v. -/
theorem C2_counterexample :
    ¬ (TritsToInt (IntToTrits (-(2 : ℤ) ^ 63)) = -(2 : ℤ) ^ 63) := by decide

/-- C2 (amended): for every int64 value except math.MinInt64, converting to
trits and back with TritsToInt (IntToTrits v) returns v. -/
theorem C2_roundtrip (v : ℤ) (h1 : -(2 : ℤ) ^ 63 < v) (h2 : v < 2 ^ 63) :
    TritsToInt (IntToTrits v) = v := by
  rw [TritsToInt_eq_wrap_pureVal, pureVal_IntToTrits h1 h2]
  exact wrap64_eq_self (le_of_lt h1) h2

/-- Witness: the amended C2 round trip applied at the concrete value 12. -/
theorem C2_roundtrip_witness :
    (-(2 : ℤ) ^ 63 < 12 ∧ (12 : ℤ) < 2 ^ 63) ∧
      TritsToInt (IntToTrits 12) = 12 :=
  ⟨⟨by decide, by decide⟩, C2_roundtrip 12 (by decide) (by decide)⟩

/-- Wrap-around of Go two's-complement int8 arithmetic. -/
def wrap8 (x : ℤ) : ℤ := (x + 128) % 256 - 128

/-- sum (trinary.go): trit addition without carry; the int8 sum 2 maps to -1
and -2 maps to 1. -/
def sum (a b : ℤ) : ℤ :=
  let s := wrap8 (a + b)
  if s = 2 then -1 else if s = -2 then 1 else s

/-- cons (trinary.go): a when both arguments agree, else 0. -/
def cons (a b : ℤ) : ℤ := if a = b then a else 0

/-- any (trinary.go): the sign of the int8 sum. -/
def any (a b : ℤ) : ℤ :=
  let s := wrap8 (a + b)
  if 0 < s then 1 else if s < 0 then -1 else 0

/-- fullAdd (trinary.go): balanced-ternary full adder returning
(sum digit, carry). -/
def fullAdd (a b c : ℤ) : ℤ × ℤ :=
  let sA := sum a b
  let cA := cons a b
  let cB := cons sA c
  let cOut := any cA cB
  let sOut := sum sA c
  (sOut, cOut)

/-- The loop of AddTrits: n output positions, reading position i of either
input as 0 beyond its length, threading the carry. -/
def addAux : ℕ → List ℤ → List ℤ → ℤ → List ℤ
  | 0, _, _, _ => []
  | n + 1, a, b, c =>
    let f := fullAdd (a.headD 0) (b.headD 0) c
    f.1 :: addAux n a.tail b.tail f.2

/-- AddTrits (trinary.go): result length is the maximum input length, and
two empty inputs yield the single trit 0. -/
def AddTrits (a b : List ℤ) : List ℤ :=
  if max a.length b.length = 0 then [0]
  else addAux (max a.length b.length) a b 0

theorem fullAdd_spec (a b c : ℤ) (ha : isTrit a) (hb : isTrit b)
    (hc : isTrit c) :
    isTrit (fullAdd a b c).1 ∧ isTrit (fullAdd a b c).2 ∧
      (fullAdd a b c).1 + 3 * (fullAdd a b c).2 = a + b + c := by
  rcases ha with rfl | rfl | rfl <;> rcases hb with rfl | rfl | rfl <;>
    rcases hc with rfl | rfl | rfl <;> decide

theorem tritList_headD {a : List ℤ} (h : tritList a) : isTrit (a.headD 0) := by
  cases a with
  | nil => exact Or.inr (Or.inl rfl)
  | cons x l => exact h x (List.mem_cons_self x l)

theorem tritList_tail {a : List ℤ} (h : tritList a) : tritList a.tail := by
  cases a with
  | nil => exact h
  | cons x l => exact fun y hy => h y (List.mem_cons_of_mem x hy)

theorem pureVal_headD_tail (l : List ℤ) :
    pureVal l = pureVal l.tail * 3 + l.headD 0 := by
  cases l with
  | nil => rfl
  | cons d l => rfl

theorem addAux_length : ∀ (n : ℕ) (a b : List ℤ) (c : ℤ),
    (addAux n a b c).length = n := by
  intro n
  induction n with
  | zero => intro a b c; rfl
  | succ m ih => intro a b c; simp [addAux, ih]

theorem addAux_trits : ∀ (n : ℕ) (a b : List ℤ) (c : ℤ),
    tritList a → tritList b → isTrit c → tritList (addAux n a b c) := by
  intro n
  induction n with
  | zero => intro a b c _ _ _ x hx; simp [addAux] at hx
  | succ m ih =>
    intro a b c ha hb hc x hx
    obtain ⟨h1, h2, -⟩ :=
      fullAdd_spec _ _ _ (tritList_headD ha) (tritList_headD hb) hc
    simp only [addAux, List.mem_cons] at hx
    rcases hx with rfl | hx
    · exact h1
    · exact ih _ _ _ (tritList_tail ha) (tritList_tail hb) h2 x hx

theorem addAux_val : ∀ (n : ℕ) (a b : List ℤ) (c : ℤ),
    tritList a → tritList b → isTrit c → a.length ≤ n → b.length ≤ n →
    ∃ cf, isTrit cf ∧
      pureVal (addAux n a b c) = pureVal a + pureVal b + c - 3 ^ n * cf := by
  intro n
  induction n with
  | zero =>
    intro a b c _ _ hc hla hlb
    have ha : a = [] := List.eq_nil_of_length_eq_zero (Nat.le_zero.mp hla)
    have hb : b = [] := List.eq_nil_of_length_eq_zero (Nat.le_zero.mp hlb)
    subst ha; subst hb
    exact ⟨c, hc, by simp [addAux, pureVal]⟩
  | succ m ih =>
    intro a b c ha hb hc hla hlb
    obtain ⟨h1, h2, hsum⟩ :=
      fullAdd_spec _ _ _ (tritList_headD ha) (tritList_headD hb) hc
    have hta : a.tail.length ≤ m := by
      cases a <;> simp_all
    have htb : b.tail.length ≤ m := by
      cases b <;> simp_all
    obtain ⟨cf, hcf, hval⟩ :=
      ih a.tail b.tail _ (tritList_tail ha) (tritList_tail hb) h2 hta htb
    refine ⟨cf, hcf, ?_⟩
    rw [pureVal_headD_tail a, pureVal_headD_tail b]
    simp only [addAux, pureVal_cons, hval]
    linear_combination hsum

theorem pureVal_bound : ∀ (l : List ℤ), tritList l →
    2 * pureVal l ≤ 3 ^ l.length - 1 ∧ -(3 ^ l.length - 1) ≤ 2 * pureVal l := by
  intro l
  induction l with
  | nil => intro _; simp [pureVal]
  | cons d t ih =>
    intro h
    have hd : isTrit d := h d (List.mem_cons_self d t)
    have ht := ih (fun y hy => h y (List.mem_cons_of_mem d hy))
    have h3 : (3 : ℤ) ^ (d :: t).length = 3 ^ t.length * 3 := pow_succ 3 _
    rw [pureVal_cons]
    rcases hd with rfl | rfl | rfl <;> constructor <;> nlinarith [ht.1, ht.2]

theorem AddTrits_val (a b : List ℤ) (ha : tritList a) (hb : tritList b)
    (h1 : 2 * (pureVal a + pureVal b) ≤ 3 ^ max a.length b.length - 1)
    (h2 : -(3 ^ max a.length b.length - 1) ≤ 2 * (pureVal a + pureVal b)) :
    pureVal (AddTrits a b) = pureVal a + pureVal b := by
  unfold AddTrits
  by_cases h0 : max a.length b.length = 0
  · have hA : a = [] := List.eq_nil_of_length_eq_zero (by omega)
    have hB : b = [] := List.eq_nil_of_length_eq_zero (by omega)
    subst hA; subst hB
    simp [pureVal]
  · simp only [h0, if_false]
    set n := max a.length b.length with hn
    obtain ⟨cf, hcf, hval⟩ := addAux_val n a b 0 ha hb (Or.inr (Or.inl rfl))
      (le_max_left _ _) (le_max_right _ _)
    have hout := pureVal_bound (addAux n a b 0) (addAux_trits n a b 0 ha hb
      (Or.inr (Or.inl rfl)))
    rw [addAux_length] at hout
    have hpos : (0 : ℤ) < 3 ^ n := by positivity
    have hcf0 : cf = 0 := by
      rcases hcf with rfl | rfl | rfl
      · exact absurd hval (by intro h; linarith [hout.1, hout.2])
      · rfl
      · exact absurd hval (by intro h; linarith [hout.1, hout.2])
    subst hcf0
    rw [hval]
    ring

/-- C3 counterexample: 1 + 1 is not representable in one trit, the
max-length result drops the final carry, and the round trip yields -1. -/
theorem C3_counterexample :
    ¬ (TritsToInt (AddTrits (IntToTrits 1) (IntToTrits 1)) = 1 + 1) := by
  decide

/-- C3 (amended): the addition round trip holds for int64 values other than
math.MinInt64 whose exact sum both fits in int64 and is representable in
max(|a|,|b|) balanced trits (the counterexample a = b = 1 violates the
latter); the result length is max(|a|,|b|) whenever some input is
non-empty, and adding two empty slices returns [0]. -/
theorem C3_add_roundtrip :
    (∀ a b : ℤ, -(2 : ℤ) ^ 63 < a → a < 2 ^ 63 → -(2 : ℤ) ^ 63 < b →
      b < 2 ^ 63 → -(2 : ℤ) ^ 63 ≤ a + b → a + b < 2 ^ 63 →
      2 * (a + b) ≤ 3 ^ max (IntToTrits a).length (IntToTrits b).length - 1 →
      -(3 ^ max (IntToTrits a).length (IntToTrits b).length - 1)
        ≤ 2 * (a + b) →
      TritsToInt (AddTrits (IntToTrits a) (IntToTrits b)) = a + b) ∧
    (∀ a b : List ℤ, 0 < max a.length b.length →
      (AddTrits a b).length = max a.length b.length) ∧
    AddTrits [] [] = [0] := by
  refine ⟨?_, ?_, rfl⟩
  · intro a b ha1 ha2 hb1 hb2 hs1 hs2 hr1 hr2
    have hva := pureVal_IntToTrits ha1 ha2
    have hvb := pureVal_IntToTrits hb1 hb2
    rw [TritsToInt_eq_wrap_pureVal,
      AddTrits_val _ _ (tritList_IntToTrits a) (tritList_IntToTrits b)
        (by rw [hva, hvb]; exact hr1) (by rw [hva, hvb]; exact hr2),
      hva, hvb]
    exact wrap64_eq_self hs1 hs2
  · intro a b h
    unfold AddTrits
    simp only [Nat.pos_iff_ne_zero.mp h, if_false]
    · exact addAux_length _ _ _ _

/-- Witness: the amended C3 applied at a = b = 5 (sum 10 fits in the
3-trit operand length), plus the length and empty-input parts at concrete
slices. -/
theorem C3_add_roundtrip_witness :
    TritsToInt (AddTrits (IntToTrits 5) (IntToTrits 5)) = 5 + 5 ∧
      (AddTrits [0, 1] [1]).length = max [0, 1].length [1].length :=
  ⟨C3_add_roundtrip.1 5 5 (by decide) (by decide) (by decide) (by decide)
      (by decide) (by decide) (by decide) (by decide),
    C3_add_roundtrip.2.1 [0, 1] [1] (by decide)⟩

/-- C10: the trit primitives sum, cons, any and fullAdd are closed over the
trit domain, and every element of an AddTrits result on valid inputs is a
valid trit. -/
theorem C10_addition_closed :
    (∀ a b : ℤ, isTrit a → isTrit b →
      isTrit (sum a b) ∧ isTrit (cons a b) ∧ isTrit (any a b)) ∧
    (∀ a b c : ℤ, isTrit a → isTrit b → isTrit c →
      isTrit (fullAdd a b c).1 ∧ isTrit (fullAdd a b c).2) ∧
    (∀ a b : List ℤ, tritList a → tritList b → tritList (AddTrits a b)) := by
  refine ⟨?_, ?_, ?_⟩
  · intro a b ha hb
    rcases ha with rfl | rfl | rfl <;> rcases hb with rfl | rfl | rfl <;>
      exact ⟨by decide, by decide, by decide⟩
  · intro a b c ha hb hc
    obtain ⟨h1, h2, -⟩ := fullAdd_spec a b c ha hb hc
    exact ⟨h1, h2⟩
  · intro a b ha hb
    unfold AddTrits
    by_cases h0 : max a.length b.length = 0
    · simp only [h0, if_true]
      intro x hx
      simp at hx
      subst hx
      exact Or.inr (Or.inl rfl)
    · simp only [h0, if_false]
      exact addAux_trits _ _ _ _ ha hb (Or.inr (Or.inl rfl))

/-- Witness: C10 closure applied at concrete trits and slices. -/
theorem C10_addition_closed_witness :
    isTrit (sum 1 1) ∧ isTrit (cons 1 0) ∧ isTrit (any 1 (-1)) ∧
      isTrit (fullAdd 1 1 1).1 ∧
      isTrit ((AddTrits [1] [1, -1]).headD 0) :=
  ⟨(C10_addition_closed.1 1 1 (by decide) (by decide)).1,
    (C10_addition_closed.1 1 0 (by decide) (by decide)).2.1,
    (C10_addition_closed.1 1 (-1) (by decide) (by decide)).2.2,
    (C10_addition_closed.2.1 1 1 1 (by decide) (by decide) (by decide)).1,
    C10_addition_closed.2.2 [1] [1, -1] (by decide) (by decide)
      ((AddTrits [1] [1, -1]).headD 0) (by decide)⟩

/-- TryteAlphabet (consts package): the 27 tryte characters. -/
def TryteAlphabet : List Char :=
  ['9', 'A', 'B', 'C', 'D', 'E', 'F', 'G', 'H', 'I', 'J', 'K', 'L', 'M',
   'N', 'O', 'P', 'Q', 'R', 'S', 'T', 'U', 'V', 'W', 'X', 'Y', 'Z']

/-- TryteToTritsLUT (trinary.go). -/
def TryteToTritsLUT : List (List ℤ) :=
  [[0, 0, 0], [1, 0, 0], [-1, 1, 0], [0, 1, 0],
   [1, 1, 0], [-1, -1, 1], [0, -1, 1], [1, -1, 1],
   [-1, 0, 1], [0, 0, 1], [1, 0, 1], [-1, 1, 1],
   [0, 1, 1], [1, 1, 1], [-1, -1, -1], [0, -1, -1],
   [1, -1, -1], [-1, 0, -1], [0, 0, -1], [1, 0, -1],
   [-1, 1, -1], [0, 1, -1], [1, 1, -1], [-1, -1, 0],
   [0, -1, 0], [1, -1, 0], [-1, 0, 0]]

/-- The alphabet character for group value j = a + 3b + 9c, wrapping
negative j by +27 (body of the TritsToTrytes loop). -/
def tryteChar (j : ℤ) : Char :=
  TryteAlphabet.getD (if j < 0 then j + 27 else j).toNat ' '

/-- The per-group loop of TritsToTrytes. -/
def trytesOf : List ℤ → List Char
  | a :: b :: c :: rest => tryteChar (a + b * 3 + c * 9) :: trytesOf rest
  | _ => []

/-- TritsToTrytes (trinary.go): defined only when CanTritsToTrytes holds,
i.e. on non-empty slices whose length is a multiple of 3; none models the
Go error. -/
def TritsToTrytes (t : List ℤ) : Option (List Char) :=
  if t.length ≠ 0 ∧ t.length % 3 = 0 then some (trytesOf t) else none

/-- ValidTrytes (trinary.go): the regex `[9A-Z]+`, i.e. non-empty with every
character drawn from the tryte alphabet. -/
def validTrytes (s : List Char) : Prop := s ≠ [] ∧ ∀ c ∈ s, c ∈ TryteAlphabet

instance (s : List Char) : Decidable (validTrytes s) := by
  unfold validTrytes; infer_instance

/-- strings.Index into the alphabet followed by the LUT lookup
(body of the TrytesToTrits loop). -/
def lutFor (c : Char) : List ℤ :=
  TryteToTritsLUT.getD (TryteAlphabet.findIdx (· == c)) []

/-- Concatenation of the 3-trit groups of all characters. -/
def lutConcat : List Char → List ℤ
  | [] => []
  | c :: cs => lutFor c ++ lutConcat cs

/-- TrytesToTrits (trinary.go). -/
def TrytesToTrits (s : List Char) : Option (List ℤ) :=
  if validTrytes s then some (lutConcat s) else none

theorem chunk_roundtrip (a b c : ℤ) (ha : isTrit a) (hb : isTrit b)
    (hc : isTrit c) :
    lutFor (tryteChar (a + b * 3 + c * 9)) = [a, b, c] ∧
      tryteChar (a + b * 3 + c * 9) ∈ TryteAlphabet := by
  rcases ha with rfl | rfl | rfl <;> rcases hb with rfl | rfl | rfl <;>
    rcases hc with rfl | rfl | rfl <;> exact ⟨by decide, by decide⟩

theorem trytes_roundtrip_aux : ∀ (n : ℕ) (t : List ℤ), t.length ≤ n →
    tritList t → t.length % 3 = 0 →
    lutConcat (trytesOf t) = t ∧ ∀ c ∈ trytesOf t, c ∈ TryteAlphabet := by
  intro n
  induction n with
  | zero =>
    intro t hlen _ _
    have ht : t = [] := List.eq_nil_of_length_eq_zero (Nat.le_zero.mp hlen)
    subst ht
    exact ⟨rfl, by simp [trytesOf]⟩
  | succ m ih =>
    intro t hlen h hl
    rcases t with _ | ⟨a, _ | ⟨b, _ | ⟨c, rest⟩⟩⟩
    · exact ⟨rfl, by simp [trytesOf]⟩
    · simp at hl
    · simp at hl
    · have ha := h a (by simp)
      have hb := h b (by simp)
      have hc := h c (by simp)
      obtain ⟨h1, h2⟩ := chunk_roundtrip a b c ha hb hc
      have hl' : rest.length % 3 = 0 := by simp at hl; omega
      have hlen' : rest.length ≤ m := by simp at hlen; omega
      obtain ⟨ih1, ih2⟩ := ih rest hlen'
        (fun x hx => h x (by simp [hx])) hl'
      refine ⟨?_, ?_⟩
      · show lutFor (tryteChar (a + b * 3 + c * 9)) ++ lutConcat (trytesOf rest)
          = a :: b :: c :: rest
        rw [h1, ih1]
        rfl
      · intro ch hch
        simp only [trytesOf, List.mem_cons] at hch
        rcases hch with rfl | hch
        · exact h2
        · exact ih2 ch hch

/-- C5 counterexample: the empty trit slice has length a multiple of 3, yet
TritsToTrytes rejects it (CanTritsToTrytes requires non-emptiness). -/
theorem C5_counterexample : TritsToTrytes ([] : List ℤ) = none := by decide

/-- C5 (amended): for every valid trit sequence of positive length a
multiple of 3, converting to trytes and back returns the original sequence
and neither conversion errors. -/
theorem C5_tryte_roundtrip (t : List ℤ) (h : tritList t)
    (h3 : t.length % 3 = 0) (hne : t ≠ []) :
    TritsToTrytes t = some (trytesOf t) ∧
      TrytesToTrits (trytesOf t) = some t := by
  obtain ⟨h1, h2⟩ := trytes_roundtrip_aux t.length t le_rfl h h3
  have hlen0 : t.length ≠ 0 := fun hc =>
    hne (List.eq_nil_of_length_eq_zero hc)
  constructor
  · unfold TritsToTrytes
    simp [hlen0, h3]
  · have hsne : trytesOf t ≠ [] := by
      intro hc
      rw [hc] at h1
      exact hne h1.symm
    unfold TrytesToTrits
    simp only [validTrytes, hsne, ne_eq, not_false_eq_true, true_and, h1]
    rw [if_pos h2]

/-- Witness: the amended C5 round trip at the concrete slice [1,1,1]
(tryte M). -/
theorem C5_tryte_roundtrip_witness :
    TritsToTrytes [1, 1, 1] = some (trytesOf [1, 1, 1]) ∧
      TrytesToTrits (trytesOf [1, 1, 1]) = some [1, 1, 1] :=
  C5_tryte_roundtrip [1, 1, 1] (by decide) (by decide) (by decide)

/-- Value of a little-endian list of 32-bit limbs. -/
def valLimbs (l : List ℕ) : ℕ := l.foldr (fun d acc => d + 2 ^ 32 * acc) 0

/-- Canonical little-endian limb decomposition into k limbs. -/
def natToLimbsAux : ℕ → ℕ → List ℕ
  | 0, _ => []
  | k + 1, n => n % 2 ^ 32 :: natToLimbsAux k (n / 2 ^ 32)

/-- Canonical 12-limb (IntLength = 12, 384 bit) representation. -/
def natToLimbs (n : ℕ) : List ℕ := natToLimbsAux 12 n

/-- Little-endian byte expansion of the limb buffer (the Go code aliases
the 48-byte buffer as 12 little-endian uint32 words). -/
def limbsToBytesLE : List ℕ → List ℕ
  | [] => []
  | d :: ds =>
    d % 256 :: d / 256 % 256 :: d / 2 ^ 16 % 256 :: d / 2 ^ 24 % 256 ::
      limbsToBytesLE ds

/-- Inverse aliasing: group four little-endian bytes into one limb. -/
def bytesToLimbsLE : List ℕ → List ℕ
  | b0 :: b1 :: b2 :: b3 :: rest =>
    (b0 + 256 * b1 + 2 ^ 16 * b2 + 2 ^ 24 * b3) :: bytesToLimbsLE rest
  | _ => []

/-- halfThree (trinary.go): the 12-limb little-endian constant (3^242)/2. -/
def halfThree : List ℕ :=
  [0xa5ce8964, 0x9f007669, 0x1484504f, 0x3ade00d9,
   0x0c24486e, 0x50979d57, 0x79a4c702, 0x48bbae36,
   0xa9f6808b, 0xaa06a805, 0xa87fabdf, 0x5e69ebef]

/-- Modelled from the spec: bigint.IsNull of the bigint package (which is
not under src/), true when every limb is zero. -/
def bigintIsNull (l : List ℕ) : Bool := l.all (· == 0)

/-- Modelled from the spec: bigint.Not, the limb-wise bitwise complement. -/
def bigintNot (l : List ℕ) : List ℕ := l.map (fun d => 2 ^ 32 - 1 - d)

/-- Modelled from the spec: bigint.MustCmp, the three-way comparison of the
represented 384-bit values. -/
def bigintMustCmp (a b : List ℕ) : ℤ :=
  if valLimbs a < valLimbs b then -1
  else if valLimbs a = valLimbs b then 0
  else 1

/-- Modelled from the spec: bigint.MustAdd; overflow beyond 384 bits aborts
in Go and does not occur in the uses below. -/
def bigintMustAdd (a b : List ℕ) : List ℕ :=
  natToLimbs ((valLimbs a + valLimbs b) % 2 ^ 384)

/-- Modelled from the spec: bigint.MustSub; underflow aborts in Go and does
not occur in the uses below (truncated subtraction here). -/
def bigintMustSub (a b : List ℕ) : List ℕ :=
  natToLimbs (valLimbs a - valLimbs b)

/-- Modelled from the spec: the carry loop of bigint.AddSmall past the
first limb, counting the limbs written. -/
def addSmallAux : List ℕ → ℕ → List ℕ × ℕ
  | [], _ => ([], 0)
  | d :: ds, c =>
    if c = 0 then (d :: ds, 0)
    else
      let v := d + c
      let r := addSmallAux ds (v / 2 ^ 32)
      (v % 2 ^ 32 :: r.1, r.2 + 1)

/-- Modelled from the spec: bigint.AddSmall adds a uint32 to the first
limb, propagates the carry and returns the number of limbs written. -/
def bigintAddSmall (l : List ℕ) (a : ℕ) : List ℕ × ℕ :=
  match l with
  | [] => ([], 0)
  | d :: ds =>
    let v := d + a
    let r := addSmallAux ds (v / 2 ^ 32)
    (v % 2 ^ 32 :: r.1, r.2 + 1)

/-- The multiply-by-3 carry loop of TritsToBytes over the first size
limbs. -/
def mulLoop : List ℕ → ℕ → List ℕ × ℕ
  | [], c => ([], c)
  | d :: ds, c =>
    let v := d * 3 + c
    let r := mulLoop ds (v / 2 ^ 32)
    (v % 2 ^ 32 :: r.1, r.2)

/-- One iteration of the Horner loop of TritsToBytes: multiply the first
size limbs by 3, write the carry limb at index size (growing size), then
AddSmall the unbalanced digit e+1 and grow size to the AddSmall count. -/
def hstep (st : List ℕ × ℕ) (e : ℤ) : List ℕ × ℕ :=
  let limbs := st.1
  let sz := st.2
  let m := mulLoop (limbs.take sz) 0
  let limbs1 := m.1 ++ limbs.drop sz
  let st1 := if 0 < m.2 then (limbs1.set sz m.2, sz + 1) else (limbs1, sz)
  let r := bigintAddSmall st1.1 (e + 1).toNat
  (r.1, max st1.2 r.2)

/-- TritsToBytes (trinary.go), defined on 243 trits; the result is the
48-byte big-endian buffer (bigint.Reverse of the little-endian alias).
The last trit is ignored. -/
def TritsToBytes (t : List ℤ) : Option (List ℕ) :=
  if t.length ≠ 243 then none
  else if (t.take 242).all (· == -1) then
    some ((limbsToBytesLE (bigintAddSmall (bigintNot halfThree) 1).1).reverse)
  else
    let st := ((t.take 242).reverse).foldl hstep (List.replicate 12 0, 1)
    let base := st.1
    let base2 :=
      if bigintIsNull base then base
      else if bigintMustCmp halfThree base ≤ 0 then
        bigintMustSub base halfThree
      else (bigintAddSmall (bigintNot (bigintMustSub halfThree base)) 1).1
    some ((limbsToBytesLE base2).reverse)

/-- The inner big-endian long-division step of BytesToTrits: remainder so
far plus the remaining limbs from most significant down, producing
quotient limbs and the final remainder. -/
def divStepBE : ℕ → List ℕ → List ℕ × ℕ
  | rem, [] => ([], rem)
  | rem, d :: ds =>
    let lhs := rem * 2 ^ 32 + d
    let r := divStepBE (lhs % 3) ds
    (lhs / 3 :: r.1, r.2)

/-- One divide-by-3 pass over the little-endian limbs (the j loop of
BytesToTrits), returning quotient limbs and remainder. -/
def divmod3 (limbs : List ℕ) : List ℕ × ℕ :=
  let r := divStepBE 0 limbs.reverse
  (r.1.reverse, r.2)

/-- The trit-extraction loop of BytesToTrits: k balanced trits, least
significant first, each `remainder - 1`. -/
def extract : ℕ → List ℕ → List ℤ
  | 0, _ => []
  | k + 1, limbs =>
    let r := divmod3 limbs
    ((r.2 : ℤ) - 1) :: extract k r.1

/-- BytesToTrits (trinary.go), defined on 48 bytes. -/
def BytesToTrits (b : List ℕ) : Option (List ℤ) :=
  if b.length ≠ 48 then none
  else
    let base := bytesToLimbsLE b.reverse
    if bigintIsNull base then some (List.replicate 243 0)
    else
      let fb :=
        if base.getD 11 0 / 2 ^ 31 = 0 then
          (bigintMustAdd base halfThree, false)
        else
          let nb := bigintNot base
          if bigintMustCmp nb halfThree = 1 then
            (bigintMustSub nb halfThree, true)
          else (bigintMustSub halfThree (bigintAddSmall nb 1).1, false)
      let out := extract 242 fb.1 ++ [0]
      some (if fb.2 then out.map (fun x => -x) else out)

/-- The 48-byte big-endian encoding of a 384-bit value: the spec's wire
form of the hash bytes. -/
def beBytes48 (n : ℕ) : List ℕ := (limbsToBytesLE (natToLimbs n)).reverse

theorem valLimbs_nil : valLimbs [] = 0 := rfl

theorem valLimbs_cons (d : ℕ) (l : List ℕ) :
    valLimbs (d :: l) = d + 2 ^ 32 * valLimbs l := rfl

theorem valLimbs_append (a b : List ℕ) :
    valLimbs (a ++ b) = valLimbs a + 2 ^ (32 * a.length) * valLimbs b := by
  induction a with
  | nil => simp [valLimbs_nil]
  | cons d l ih =>
    simp only [List.cons_append, valLimbs_cons, ih, List.length_cons]
    ring

theorem valLimbs_eq_zero {l : List ℕ} (h : valLimbs l = 0) :
    ∀ d ∈ l, d = 0 := by
  induction l with
  | nil => intro d hd; simp at hd
  | cons x t ih =>
    rw [valLimbs_cons] at h
    intro d hd
    rcases List.mem_cons.mp hd with rfl | hd
    · omega
    · exact ih (by omega) d hd

theorem valLimbs_lt {l : List ℕ} (h : ∀ d ∈ l, d < 2 ^ 32) :
    valLimbs l < 2 ^ (32 * l.length) := by
  induction l with
  | nil => simp [valLimbs_nil]
  | cons x t ih =>
    have hx := h x (List.mem_cons_self x t)
    have ht := ih (fun d hd => h d (List.mem_cons_of_mem x hd))
    rw [valLimbs_cons]
    have : 2 ^ (32 * (x :: t).length) = 2 ^ 32 * 2 ^ (32 * t.length) := by
      rw [← pow_add, List.length_cons]; ring_nf
    rw [this]
    nlinarith

theorem valLimbs_natToLimbsAux (k : ℕ) :
    ∀ n, valLimbs (natToLimbsAux k n) = n % 2 ^ (32 * k) := by
  induction k with
  | zero => intro n; simp [natToLimbsAux, valLimbs_nil, Nat.mod_one]
  | succ m ih =>
    intro n
    rw [natToLimbsAux, valLimbs_cons, ih]
    have hB : (0 : ℕ) < 2 ^ (32 * m) := by positivity
    have h1 : 2 ^ (32 * (m + 1)) = 2 ^ 32 * 2 ^ (32 * m) := by
      rw [← pow_add]; ring_nf
    have key : n = 2 ^ 32 * 2 ^ (32 * m) * (n / 2 ^ 32 / 2 ^ (32 * m)) +
        (n % 2 ^ 32 + 2 ^ 32 * (n / 2 ^ 32 % 2 ^ (32 * m))) := by
      have e1 := Nat.div_add_mod n (2 ^ 32)
      have e2 := Nat.div_add_mod (n / 2 ^ 32) (2 ^ (32 * m))
      calc n = 2 ^ 32 * (n / 2 ^ 32) + n % 2 ^ 32 := e1.symm
        _ = 2 ^ 32 * (2 ^ (32 * m) * (n / 2 ^ 32 / 2 ^ (32 * m)) +
              n / 2 ^ 32 % 2 ^ (32 * m)) + n % 2 ^ 32 := by rw [e2]
        _ = _ := by ring
    have hlt : n % 2 ^ 32 + 2 ^ 32 * (n / 2 ^ 32 % 2 ^ (32 * m)) <
        2 ^ 32 * 2 ^ (32 * m) := by
      have r1 : n % 2 ^ 32 < 2 ^ 32 := Nat.mod_lt _ (by norm_num)
      have r2 : n / 2 ^ 32 % 2 ^ (32 * m) < 2 ^ (32 * m) := Nat.mod_lt _ hB
      nlinarith
    rw [h1]
    conv_rhs => rw [key]
    rw [Nat.mul_add_mod, Nat.mod_eq_of_lt hlt]

theorem natToLimbsAux_length (k n : ℕ) : (natToLimbsAux k n).length = k := by
  induction k generalizing n with
  | zero => rfl
  | succ m ih => simp [natToLimbsAux, ih]

theorem natToLimbsAux_bounds (k : ℕ) :
    ∀ n, ∀ d ∈ natToLimbsAux k n, d < 2 ^ 32 := by
  induction k with
  | zero => intro n d hd; simp [natToLimbsAux] at hd
  | succ m ih =>
    intro n d hd
    rcases List.mem_cons.mp hd with rfl | hd
    · exact Nat.mod_lt _ (by norm_num)
    · exact ih _ d hd

theorem natToLimbsAux_val_eq (k : ℕ) :
    ∀ l : List ℕ, l.length = k → (∀ d ∈ l, d < 2 ^ 32) →
      natToLimbsAux k (valLimbs l) = l := by
  induction k with
  | zero =>
    intro l hl _
    rw [List.length_eq_zero] at hl
    subst hl; rfl
  | succ m ih =>
    intro l hl hb
    cases l with
    | nil => simp at hl
    | cons d t =>
      have hd := hb d (List.mem_cons_self d t)
      have hdt : valLimbs (d :: t) % 2 ^ 32 = d := by
        rw [valLimbs_cons, Nat.add_mul_mod_self_left, Nat.mod_eq_of_lt hd]
      have hq : valLimbs (d :: t) / 2 ^ 32 = valLimbs t := by
        rw [valLimbs_cons, Nat.add_mul_div_left _ _ (by norm_num : 0 < 2 ^ 32),
          Nat.div_eq_of_lt hd, Nat.zero_add]
      rw [natToLimbsAux, hdt, hq,
        ih t (by simpa using hl) (fun x hx => hb x (List.mem_cons_of_mem d hx))]

theorem mod_split (x B : ℕ) (hB : 0 < B) :
    x % (2 ^ 32 * B) = x % 2 ^ 32 + 2 ^ 32 * (x / 2 ^ 32 % B) := by
  have key : x = 2 ^ 32 * B * (x / 2 ^ 32 / B) +
      (x % 2 ^ 32 + 2 ^ 32 * (x / 2 ^ 32 % B)) := by
    have e1 := Nat.div_add_mod x (2 ^ 32)
    have e2 := Nat.div_add_mod (x / 2 ^ 32) B
    calc x = 2 ^ 32 * (x / 2 ^ 32) + x % 2 ^ 32 := e1.symm
      _ = 2 ^ 32 * (B * (x / 2 ^ 32 / B) + x / 2 ^ 32 % B) + x % 2 ^ 32 := by
          rw [e2]
      _ = _ := by ring
  have hlt : x % 2 ^ 32 + 2 ^ 32 * (x / 2 ^ 32 % B) < 2 ^ 32 * B := by
    have r1 : x % 2 ^ 32 < 2 ^ 32 := Nat.mod_lt _ (by norm_num)
    have r2 : x / 2 ^ 32 % B < B := Nat.mod_lt _ hB
    nlinarith
  conv_lhs => rw [key]
  rw [Nat.mul_add_mod, Nat.mod_eq_of_lt hlt]

theorem valLimbs_all_zero {l : List ℕ} (h : ∀ d ∈ l, d = 0) :
    valLimbs l = 0 := by
  induction l with
  | nil => rfl
  | cons x t ih =>
    rw [valLimbs_cons, h x (List.mem_cons_self x t),
      ih (fun d hd => h d (List.mem_cons_of_mem x hd))]
    omega

theorem set_append_len (a b : List ℕ) (x : ℕ) :
    (a ++ b).set a.length x = a ++ b.set 0 x := by
  induction a with
  | nil => rfl
  | cons y t ih => simp [List.set, ih]

theorem pow32_succ (n : ℕ) : (2 : ℕ) ^ (32 * (n + 1)) = 2 ^ 32 * 2 ^ (32 * n) := by
  rw [← pow_add]
  ring_nf

/-- The shared limb-level identity: consing a carried-into limb is addition
modulo one more limb. -/
theorem carry_cons_val (d c A n : ℕ) :
    (d + c) % 2 ^ 32 + 2 ^ 32 * ((A + (d + c) / 2 ^ 32) % 2 ^ (32 * n)) =
      (d + 2 ^ 32 * A + c) % 2 ^ (32 * (n + 1)) := by
  have h1 : (d + 2 ^ 32 * A + c) % 2 ^ 32 = (d + c) % 2 ^ 32 := by
    conv_lhs => rw [show d + 2 ^ 32 * A + c = d + c + A * 2 ^ 32 by ring]
    rw [Nat.add_mul_mod_self_right]
  have h2 : (d + 2 ^ 32 * A + c) / 2 ^ 32 = A + (d + c) / 2 ^ 32 := by
    conv_lhs => rw [show d + 2 ^ 32 * A + c = d + c + 2 ^ 32 * A by ring]
    rw [Nat.add_mul_div_left _ _ (by norm_num : (0 : ℕ) < 2 ^ 32)]
    ring
  rw [pow32_succ, mod_split _ _ (by positivity : (0:ℕ) < 2 ^ (32 * n)), h1, h2]

theorem addSmallAux_cons_ne (d : ℕ) (t : List ℕ) (c : ℕ) (hc : c ≠ 0) :
    addSmallAux (d :: t) c =
      ((d + c) % 2 ^ 32 :: (addSmallAux t ((d + c) / 2 ^ 32)).1,
        (addSmallAux t ((d + c) / 2 ^ 32)).2 + 1) := by
  simp only [addSmallAux, if_neg hc]

theorem addSmallAux_facts : ∀ (ds : List ℕ) (c : ℕ),
    (∀ d ∈ ds, d < 2 ^ 32) →
    (addSmallAux ds c).1.length = ds.length ∧
    (∀ d ∈ (addSmallAux ds c).1, d < 2 ^ 32) ∧
    valLimbs (addSmallAux ds c).1 =
      (valLimbs ds + c) % 2 ^ (32 * ds.length) ∧
    (addSmallAux ds c).2 ≤ ds.length ∧
    (addSmallAux ds c).1.drop (addSmallAux ds c).2 =
      ds.drop (addSmallAux ds c).2 := by
  intro ds
  induction ds with
  | nil =>
    intro c _
    refine ⟨rfl, by simp [addSmallAux], ?_, le_rfl, rfl⟩
    simp [addSmallAux, valLimbs_nil, Nat.mod_one]
  | cons d t ih =>
    intro c hb
    have hd := hb d (List.mem_cons_self d t)
    have hbt := fun x hx => hb x (List.mem_cons_of_mem d hx)
    by_cases hc : c = 0
    · subst hc
      have hvlt : valLimbs (d :: t) < 2 ^ (32 * (d :: t).length) :=
        valLimbs_lt hb
      refine ⟨by simp [addSmallAux], by simpa [addSmallAux] using hb, ?_,
        by simp [addSmallAux], by simp [addSmallAux]⟩
      simp only [addSmallAux, if_true]
      rw [Nat.add_zero, Nat.mod_eq_of_lt hvlt]
    · obtain ⟨ih1, ih2, ih3, ih4, ih5⟩ := ih ((d + c) / 2 ^ 32) hbt
      rw [addSmallAux_cons_ne d t c hc]
      refine ⟨by simp only [List.length_cons, ih1], ?_, ?_, ?_, ?_⟩
      · intro x hx
        rcases List.mem_cons.mp hx with rfl | hx
        · exact Nat.mod_lt _ (by norm_num)
        · exact ih2 x hx
      · rw [valLimbs_cons, ih3, List.length_cons, valLimbs_cons,
          carry_cons_val]
      · simp only [List.length_cons]
        omega
      · simp only [List.drop_succ_cons]
        exact ih5

theorem bigintAddSmall_cons (d : ℕ) (t : List ℕ) (a : ℕ) :
    bigintAddSmall (d :: t) a =
      ((d + a) % 2 ^ 32 :: (addSmallAux t ((d + a) / 2 ^ 32)).1,
        (addSmallAux t ((d + a) / 2 ^ 32)).2 + 1) := rfl

theorem bigintAddSmall_facts (l : List ℕ) (a : ℕ)
    (hb : ∀ d ∈ l, d < 2 ^ 32) :
    (bigintAddSmall l a).1.length = l.length ∧
    (∀ d ∈ (bigintAddSmall l a).1, d < 2 ^ 32) ∧
    valLimbs (bigintAddSmall l a).1 =
      (valLimbs l + a) % 2 ^ (32 * l.length) ∧
    (bigintAddSmall l a).2 ≤ l.length ∧
    (bigintAddSmall l a).1.drop (bigintAddSmall l a).2 =
      l.drop (bigintAddSmall l a).2 := by
  cases l with
  | nil =>
    refine ⟨rfl, by simp [bigintAddSmall], ?_, le_rfl, rfl⟩
    simp [bigintAddSmall, valLimbs_nil, Nat.mod_one]
  | cons d t =>
    have hd := hb d (List.mem_cons_self d t)
    have hbt := fun x hx => hb x (List.mem_cons_of_mem d hx)
    obtain ⟨ih1, ih2, ih3, ih4, ih5⟩ := addSmallAux_facts t ((d + a) / 2 ^ 32) hbt
    rw [bigintAddSmall_cons]
    refine ⟨by simp only [List.length_cons, ih1], ?_, ?_, ?_, ?_⟩
    · intro x hx
      rcases List.mem_cons.mp hx with rfl | hx
      · exact Nat.mod_lt _ (by norm_num)
      · exact ih2 x hx
    · rw [valLimbs_cons, ih3, List.length_cons, valLimbs_cons,
        carry_cons_val]
    · simp only [List.length_cons]
      omega
    · simp only [List.drop_succ_cons]
      exact ih5

theorem mulLoop_cons (d : ℕ) (t : List ℕ) (c : ℕ) :
    mulLoop (d :: t) c =
      ((d * 3 + c) % 2 ^ 32 :: (mulLoop t ((d * 3 + c) / 2 ^ 32)).1,
        (mulLoop t ((d * 3 + c) / 2 ^ 32)).2) := rfl

theorem mulLoop_facts : ∀ (ds : List ℕ) (c : ℕ),
    (∀ d ∈ ds, d < 2 ^ 32) → c ≤ 2 →
    (mulLoop ds c).1.length = ds.length ∧
    (∀ d ∈ (mulLoop ds c).1, d < 2 ^ 32) ∧
    (mulLoop ds c).2 ≤ 2 ∧
    valLimbs (mulLoop ds c).1 + 2 ^ (32 * ds.length) * (mulLoop ds c).2 =
      3 * valLimbs ds + c := by
  intro ds
  induction ds with
  | nil =>
    intro c _ hc
    exact ⟨rfl, by simp [mulLoop], hc, by simp [mulLoop, valLimbs_nil]⟩
  | cons d t ih =>
    intro c hb hc
    have hd := hb d (List.mem_cons_self d t)
    have hbt := fun x hx => hb x (List.mem_cons_of_mem d hx)
    have hcar : (d * 3 + c) / 2 ^ 32 ≤ 2 := by omega
    obtain ⟨ih1, ih2, ih3, ih4⟩ := ih ((d * 3 + c) / 2 ^ 32) hbt hcar
    rw [mulLoop_cons]
    refine ⟨by simp only [List.length_cons, ih1], ?_, by simpa using ih3, ?_⟩
    · intro x hx
      rcases List.mem_cons.mp hx with rfl | hx
      · exact Nat.mod_lt _ (by norm_num)
      · exact ih2 x hx
    · rw [valLimbs_cons, List.length_cons, pow32_succ, valLimbs_cons]
      have hv := Nat.div_add_mod (d * 3 + c) (2 ^ 32)
      calc (d * 3 + c) % 2 ^ 32 +
            2 ^ 32 * valLimbs (mulLoop t ((d * 3 + c) / 2 ^ 32)).1 +
            2 ^ 32 * 2 ^ (32 * t.length) * (mulLoop t ((d * 3 + c) / 2 ^ 32)).2
          = (d * 3 + c) % 2 ^ 32 +
            2 ^ 32 * (valLimbs (mulLoop t ((d * 3 + c) / 2 ^ 32)).1 +
              2 ^ (32 * t.length) * (mulLoop t ((d * 3 + c) / 2 ^ 32)).2) := by
            ring
        _ = 3 * (d + 2 ^ 32 * valLimbs t) + c := by rw [ih4]; omega

/-- Limbs at positions at or beyond s are all zero. -/
def ZeroFrom (l : List ℕ) (s : ℕ) : Prop := ∀ d ∈ l.drop s, d = 0

/-- Invariant of the Horner-loop state (limbs, size) of TritsToBytes. -/
def HInv (st : List ℕ × ℕ) (v : ℕ) : Prop :=
  st.1.length = 12 ∧ (∀ d ∈ st.1, d < 2 ^ 32) ∧ 1 ≤ st.2 ∧ st.2 ≤ 12 ∧
    valLimbs st.1 = v ∧ ZeroFrom st.1 st.2

theorem zeroFrom_mono {l : List ℕ} {s s' : ℕ} (h : ZeroFrom l s)
    (hs : s ≤ s') : ZeroFrom l s' := by
  intro d hd
  apply h
  have hdd : l.drop s' = (l.drop s).drop (s' - s) := by
    rw [List.drop_drop]
    congr 1
    omega
  rw [hdd] at hd
  exact List.drop_subset _ _ hd

/-- The AddSmall half of one Horner iteration preserves the loop
invariant. -/
theorem addSmall_step_inv {l1 : List ℕ} {s1 w : ℕ} (a : ℕ)
    (h1 : l1.length = 12) (h2 : ∀ d ∈ l1, d < 2 ^ 32) (h3 : 1 ≤ s1)
    (h4 : s1 ≤ 12) (h5 : valLimbs l1 = w) (h6 : ZeroFrom l1 s1)
    (hw : w + a < 2 ^ 384) :
    HInv ((bigintAddSmall l1 a).1, max s1 (bigintAddSmall l1 a).2)
      (w + a) := by
  obtain ⟨a1, a2, a3, a4, a5⟩ := bigintAddSmall_facts l1 a h2
  rw [h1] at a3 a4
  rw [h5] at a3
  have hmod : (w + a) % 2 ^ (32 * 12) = w + a := by
    apply Nat.mod_eq_of_lt
    rw [show (32 * 12 : ℕ) = 384 from rfl]
    exact hw
  have hdd : (bigintAddSmall l1 a).1.drop
      (max s1 (bigintAddSmall l1 a).2) =
      l1.drop (max s1 (bigintAddSmall l1 a).2) := by
    calc (bigintAddSmall l1 a).1.drop (max s1 (bigintAddSmall l1 a).2)
        = ((bigintAddSmall l1 a).1.drop (bigintAddSmall l1 a).2).drop
            (max s1 (bigintAddSmall l1 a).2 - (bigintAddSmall l1 a).2) := by
          rw [List.drop_drop]
          congr 1
          omega
      _ = (l1.drop (bigintAddSmall l1 a).2).drop
            (max s1 (bigintAddSmall l1 a).2 - (bigintAddSmall l1 a).2) := by
          rw [a5]
      _ = l1.drop (max s1 (bigintAddSmall l1 a).2) := by
          rw [List.drop_drop]
          congr 1
          omega
  refine ⟨by rw [a1, h1], a2, by omega, by omega, by rw [a3, hmod], ?_⟩
  intro d hd
  rw [hdd] at hd
  exact zeroFrom_mono h6 (le_max_left _ _) d hd

theorem drop_append_of_length (a b : List ℕ) (n : ℕ) (h : a.length = n) :
    (a ++ b).drop n = b := by
  subst h
  exact List.drop_left a b

theorem set_append_of_length (a b : List ℕ) (n x : ℕ) (h : a.length = n) :
    (a ++ b).set n x = a ++ b.set 0 x := by
  subst h
  exact set_append_len a b x

theorem hstep_inv {st : List ℕ × ℕ} {v : ℕ} {e : ℤ} (hinv : HInv st v)
    (hlt : 3 * v + (e + 1).toNat < 2 ^ 384) :
    HInv (hstep st e) (3 * v + (e + 1).toNat) := by
  obtain ⟨l, sz⟩ := st
  obtain ⟨hlen, hb, hsz1, hsz12, hval, hzero⟩ := hinv
  dsimp only at hlen hb hsz1 hsz12 hval hzero
  have htake_len : (l.take sz).length = sz := by
    rw [List.length_take]
    omega
  have hdrop_zero : ∀ d ∈ l.drop sz, d = 0 := hzero
  have hval_take : valLimbs (l.take sz) = v := by
    have hsp := valLimbs_append (l.take sz) (l.drop sz)
    rw [List.take_append_drop, valLimbs_all_zero hdrop_zero] at hsp
    omega
  have hbtake : ∀ d ∈ l.take sz, d < 2 ^ 32 :=
    fun d hd => hb d (List.take_subset _ _ hd)
  obtain ⟨m1, m2, m3, m4⟩ := mulLoop_facts (l.take sz) 0 hbtake (by norm_num)
  rw [htake_len, hval_take] at m4
  rw [htake_len] at m1
  unfold hstep
  dsimp only
  have hlimbs1_len : ((mulLoop (l.take sz) 0).1 ++ l.drop sz).length = 12 := by
    rw [List.length_append, m1, List.length_drop]
    omega
  have hlimbs1_b : ∀ d ∈ (mulLoop (l.take sz) 0).1 ++ l.drop sz,
      d < 2 ^ 32 := by
    intro d hd
    rcases List.mem_append.mp hd with hd | hd
    · exact m2 d hd
    · rw [hdrop_zero d hd]
      norm_num
  have hdrop_limbs1 : ((mulLoop (l.take sz) 0).1 ++ l.drop sz).drop sz
      = l.drop sz := drop_append_of_length _ _ _ m1
  have hzero1 : ZeroFrom ((mulLoop (l.take sz) 0).1 ++ l.drop sz) sz := by
    intro d hd
    rw [hdrop_limbs1] at hd
    exact hdrop_zero d hd
  have hval_drop : valLimbs (l.drop sz) = 0 := valLimbs_all_zero hdrop_zero
  have hval_limbs1 : valLimbs ((mulLoop (l.take sz) 0).1 ++ l.drop sz)
      = valLimbs (mulLoop (l.take sz) 0).1 := by
    rw [valLimbs_append, hval_drop]
    ring
  by_cases hcar : 0 < (mulLoop (l.take sz) 0).2
  · rw [if_pos hcar]
    have hszlt : sz < 12 := by
      by_contra hge
      have hsz' : sz = 12 := by omega
      subst hsz'
      have h384 : (2 : ℕ) ^ (32 * 12) = 2 ^ 384 := rfl
      rw [h384] at m4
      have hbig : 2 ^ 384 ≤ 2 ^ 384 * (mulLoop (l.take 12) 0).2 :=
        Nat.le_mul_of_pos_right _ hcar
      omega
    have hdne : l.drop sz ≠ [] := by
      intro hc
      have hld := List.length_drop sz l
      rw [hc] at hld
      simp at hld
      omega
    obtain ⟨d0, rest, hD⟩ := List.exists_cons_of_ne_nil hdne
    have hrest_len : rest.length = 11 - sz := by
      have hld := List.length_drop sz l
      rw [hD] at hld
      simp at hld
      omega
    have hrest_zero : ∀ d ∈ rest, d = 0 := fun d hd =>
      hdrop_zero d (by rw [hD]; exact List.mem_cons_of_mem d0 hd)
    have hset : ((mulLoop (l.take sz) 0).1 ++ l.drop sz).set sz
        (mulLoop (l.take sz) 0).2 =
        (mulLoop (l.take sz) 0).1 ++ (mulLoop (l.take sz) 0).2 :: rest := by
      rw [hD, set_append_of_length _ _ _ _ m1]
      rfl
    have hset_len : (((mulLoop (l.take sz) 0).1 ++ l.drop sz).set sz
        (mulLoop (l.take sz) 0).2).length = 12 := by
      rw [List.length_set]
      exact hlimbs1_len
    have hset_b : ∀ d ∈ ((mulLoop (l.take sz) 0).1 ++ l.drop sz).set sz
        (mulLoop (l.take sz) 0).2, d < 2 ^ 32 := by
      rw [hset]
      intro d hd
      rcases List.mem_append.mp hd with hd | hd
      · exact m2 d hd
      · rcases List.mem_cons.mp hd with rfl | hd
        · omega
        · rw [hrest_zero d hd]
          norm_num
    have hset_val : valLimbs (((mulLoop (l.take sz) 0).1 ++ l.drop sz).set sz
        (mulLoop (l.take sz) 0).2) = 3 * v := by
      rw [hset, valLimbs_append, m1, valLimbs_cons,
        valLimbs_all_zero hrest_zero, Nat.mul_zero, Nat.add_zero]
      omega
    have hset_zero : ZeroFrom (((mulLoop (l.take sz) 0).1 ++ l.drop sz).set sz
        (mulLoop (l.take sz) 0).2) (sz + 1) := by
      rw [hset]
      intro d hd
      have hre : (mulLoop (l.take sz) 0).1 ++ (mulLoop (l.take sz) 0).2 :: rest
          = ((mulLoop (l.take sz) 0).1 ++ [(mulLoop (l.take sz) 0).2]) ++
            rest := by
        simp
      rw [hre] at hd
      have hlen2 : ((mulLoop (l.take sz) 0).1 ++
          [(mulLoop (l.take sz) 0).2]).length = sz + 1 := by
        rw [List.length_append, m1]
        rfl
      rw [← hlen2, List.drop_left] at hd
      exact hrest_zero d hd
    exact addSmall_step_inv _ hset_len hset_b (by omega) (by omega) hset_val
      hset_zero hlt
  · rw [if_neg hcar]
    have hm2 : (mulLoop (l.take sz) 0).2 = 0 := by omega
    have hval1 : valLimbs ((mulLoop (l.take sz) 0).1 ++ l.drop sz) = 3 * v := by
      rw [hval_limbs1]
      rw [hm2] at m4
      omega
    exact addSmall_step_inv _ hlimbs1_len hlimbs1_b hsz1 hsz12 hval1 hzero1 hlt

/-- The Horner accumulation of unbalanced digits at the value level. -/
def foldDigits (a : ℕ) (l : List ℤ) : ℕ :=
  l.foldl (fun acc e => 3 * acc + (e + 1).toNat) a

theorem foldDigits_mono : ∀ (l : List ℤ) (a : ℕ), a ≤ foldDigits a l := by
  intro l
  induction l with
  | nil => intro a; exact le_rfl
  | cons e t ih =>
    intro a
    calc a ≤ 3 * a + (e + 1).toNat := by omega
      _ ≤ foldDigits (3 * a + (e + 1).toNat) t := ih _
      _ = foldDigits a (e :: t) := rfl

theorem fold_hstep_inv : ∀ (l : List ℤ) (st : List ℕ × ℕ) (v : ℕ),
    HInv st v → foldDigits v l < 2 ^ 384 →
    HInv (l.foldl hstep st) (foldDigits v l) := by
  intro l
  induction l with
  | nil => intro st v h _; exact h
  | cons e t ih =>
    intro st v h hlt
    have hstep_lt : 3 * v + (e + 1).toNat < 2 ^ 384 :=
      lt_of_le_of_lt (foldDigits_mono t _) hlt
    exact ih (hstep st e) _ (hstep_inv h hstep_lt) hlt

/-- The unbalanced digit value Σ (t i + 1)·3^i of a trit slice. -/
def digitsVal (l : List ℤ) : ℕ :=
  l.foldr (fun e acc => 3 * acc + (e + 1).toNat) 0

theorem digitsVal_cons (e : ℤ) (l : List ℤ) :
    digitsVal (e :: l) = 3 * digitsVal l + (e + 1).toNat := rfl

theorem foldDigits_reverse (l : List ℤ) :
    foldDigits 0 l.reverse = digitsVal l := by
  unfold foldDigits digitsVal
  rw [List.foldl_reverse]

theorem digitsVal_le : ∀ (l : List ℤ), tritList l →
    digitsVal l ≤ 3 ^ l.length - 1 := by
  intro l
  induction l with
  | nil => intro _; simp [digitsVal]
  | cons e t ih =>
    intro h
    have he := h e (List.mem_cons_self e t)
    have ht := ih (fun x hx => h x (List.mem_cons_of_mem e hx))
    have hd : (e + 1).toNat ≤ 2 := by
      rcases he with rfl | rfl | rfl <;> decide
    have h3 : (3 : ℕ) ^ (e :: t).length = 3 * 3 ^ t.length := by
      rw [List.length_cons, pow_succ]
      ring
    have hp : 1 ≤ (3 : ℕ) ^ t.length := Nat.one_le_pow _ _ (by norm_num)
    rw [digitsVal_cons, h3]
    omega

theorem digitsVal_pureVal : ∀ (l : List ℤ), tritList l →
    2 * (digitsVal l : ℤ) = 2 * pureVal l + 3 ^ l.length - 1 := by
  intro l
  induction l with
  | nil => intro _; simp [digitsVal, pureVal]
  | cons e t ih =>
    intro h
    have he := h e (List.mem_cons_self e t)
    have ht := ih (fun x hx => h x (List.mem_cons_of_mem e hx))
    have h3 : (3 : ℤ) ^ (e :: t).length = 3 * 3 ^ t.length := by
      rw [List.length_cons, pow_succ]
      ring
    rw [digitsVal_cons, pureVal_cons, h3]
    rcases he with rfl | rfl | rfl <;> push_cast <;> linarith

theorem digitsVal_zero_iff : ∀ (l : List ℤ), tritList l →
    (digitsVal l = 0 ↔ ∀ e ∈ l, e = -1) := by
  intro l
  induction l with
  | nil => intro _; simp [digitsVal]
  | cons e t ih =>
    intro h
    have he := h e (List.mem_cons_self e t)
    have ht := ih (fun x hx => h x (List.mem_cons_of_mem e hx))
    rw [digitsVal_cons]
    constructor
    · intro hz x hx
      have hD : digitsVal t = 0 := by omega
      have hd : (e + 1).toNat = 0 := by omega
      rcases List.mem_cons.mp hx with rfl | hx
      · rcases he with rfl | rfl | rfl <;> simp_all
      · exact (ht.mp hD) x hx
    · intro hall
      have h1 : e = -1 := hall e (List.mem_cons_self e t)
      have h2 : digitsVal t = 0 :=
        ht.mpr fun x hx => hall x (List.mem_cons_of_mem e hx)
      subst h1
      rw [h2]
      rfl

theorem pureVal_allNeg : ∀ (l : List ℤ), (∀ e ∈ l, e = -1) →
    2 * pureVal l = -(3 ^ l.length - 1) := by
  intro l
  induction l with
  | nil => intro _; simp [pureVal]
  | cons e t ih =>
    intro h
    have h1 : e = -1 := h e (List.mem_cons_self e t)
    have h2 := ih fun x hx => h x (List.mem_cons_of_mem e hx)
    have h3 : (3 : ℤ) ^ (e :: t).length = 3 * 3 ^ t.length := by
      rw [List.length_cons, pow_succ]
      ring
    rw [pureVal_cons, h3, h1]
    linarith

theorem bigintNot_facts : ∀ (l : List ℕ), (∀ d ∈ l, d < 2 ^ 32) →
    (bigintNot l).length = l.length ∧ (∀ d ∈ bigintNot l, d < 2 ^ 32) ∧
      valLimbs (bigintNot l) = 2 ^ (32 * l.length) - 1 - valLimbs l := by
  intro l
  induction l with
  | nil =>
    intro _
    exact ⟨rfl, by simp [bigintNot], by simp [bigintNot, valLimbs_nil]⟩
  | cons d tl ih =>
    intro hb
    have hd := hb d (List.mem_cons_self d tl)
    have hbt := fun x hx => hb x (List.mem_cons_of_mem d hx)
    obtain ⟨i1, i2, i3⟩ := ih hbt
    refine ⟨by simp [bigintNot], ?_, ?_⟩
    · intro x hx
      simp only [bigintNot, List.map_cons, List.mem_cons] at hx
      rcases hx with rfl | hx
      · omega
      · exact i2 x hx
    · simp only [bigintNot, List.map_cons, valLimbs_cons, List.length_cons]
      rw [show valLimbs (List.map (fun d => 2 ^ 32 - 1 - d) tl)
        = valLimbs (bigintNot tl) from rfl, i3, pow32_succ]
      have hV : valLimbs tl < 2 ^ (32 * tl.length) := valLimbs_lt hbt
      have key : ∀ P : ℕ, valLimbs tl < P →
          2 ^ 32 - 1 - d + 2 ^ 32 * (P - 1 - valLimbs tl) =
            2 ^ 32 * P - 1 - (d + 2 ^ 32 * valLimbs tl) := by
        intro P hP
        omega
      exact key _ hV

theorem halfThree_double : 2 * valLimbs halfThree + 1 = 3 ^ 242 := by decide

theorem halfThree_bounds : ∀ d ∈ halfThree, d < 2 ^ 32 := by decide

theorem halfThree_length : halfThree.length = 12 := rfl

theorem halfThree_lt : valLimbs halfThree < 2 ^ 383 := by decide

theorem pow3_242_lt : (3 : ℕ) ^ 242 < 2 ^ 384 := by decide

theorem natToLimbs_facts (n : ℕ) :
    (natToLimbs n).length = 12 ∧ (∀ d ∈ natToLimbs n, d < 2 ^ 32) ∧
      valLimbs (natToLimbs n) = n % 2 ^ 384 := by
  refine ⟨natToLimbsAux_length 12 n, natToLimbsAux_bounds 12 n, ?_⟩
  show valLimbs (natToLimbsAux 12 n) = n % 2 ^ 384
  rw [valLimbs_natToLimbsAux]

theorem limbs_canonical {l : List ℕ} (h1 : l.length = 12)
    (h2 : ∀ d ∈ l, d < 2 ^ 32) : natToLimbs (valLimbs l) = l :=
  natToLimbsAux_val_eq 12 l h1 h2


theorem TritsToBytes_val (t : List ℤ) (hlen : t.length = 243)
    (ht : tritList t) :
    TritsToBytes t =
      some (beBytes48 (pureVal (t.take 242) % (2 : ℤ) ^ 384).toNat) := by
  have hfl : (t.take 242).length = 242 := by
    rw [List.length_take, hlen]
    omega
  have htf : tritList (t.take 242) := fun x hx => ht x (List.take_subset _ _ hx)
  obtain ⟨hxu, hxl⟩ := pureVal_bound (t.take 242) htf
  rw [hfl] at hxu hxl
  have hdv := digitsVal_pureVal (t.take 242) htf
  rw [hfl] at hdv
  have hdl := digitsVal_le (t.take 242) htf
  rw [hfl] at hdl
  have h3d := halfThree_double
  have h3lt := halfThree_lt
  have hp242 := pow3_242_lt
  unfold TritsToBytes
  rw [if_neg (show ¬ t.length ≠ 243 by rw [hlen]; exact fun hc => hc rfl)]
  by_cases hall : (t.take 242).all (· == -1) = true
  · rw [if_pos hall]
    have hallp : ∀ e ∈ t.take 242, e = -1 := by
      intro e hee
      have h' := List.all_eq_true.mp hall e hee
      simpa using h'
    have hpv : 2 * pureVal (t.take 242) = -(3 ^ 242 - 1) := by
      have hh := pureVal_allNeg _ hallp
      rw [hfl] at hh
      exact hh
    obtain ⟨n1, n2, n3⟩ := bigintNot_facts halfThree halfThree_bounds
    rw [halfThree_length] at n1 n3
    obtain ⟨s1, s2, s3, s4, s5⟩ :=
      bigintAddSmall_facts (bigintNot halfThree) 1 n2
    rw [n1, n3] at s3
    have hH1 : 1 ≤ valLimbs halfThree := by omega
    have hval_out : valLimbs (bigintAddSmall (bigintNot halfThree) 1).1
        = 2 ^ 384 - valLimbs halfThree := by
      rw [s3, show (2 : ℕ) ^ (32 * 12) = 2 ^ 384 from rfl]
      have he1 : 2 ^ 384 - 1 - valLimbs halfThree + 1
          = 2 ^ 384 - valLimbs halfThree := by omega
      rw [he1, Nat.mod_eq_of_lt (by omega)]
    have hcan : (bigintAddSmall (bigintNot halfThree) 1).1
        = natToLimbs (2 ^ 384 - valLimbs halfThree) := by
      rw [← hval_out]
      exact (limbs_canonical (by rw [s1, n1]) s2).symm
    have hxval : pureVal (t.take 242) = -(valLimbs halfThree : ℤ) := by
      omega
    have hemod : pureVal (t.take 242) % (2 : ℤ) ^ 384
        = 2 ^ 384 - (valLimbs halfThree : ℤ) := by
      rw [hxval]
      conv_lhs => rw [show -(valLimbs halfThree : ℤ)
        = (2 ^ 384 - (valLimbs halfThree : ℤ)) + 2 ^ 384 * (-1) by ring]
      rw [Int.add_mul_emod_self_left]
      apply Int.emod_eq_of_lt <;> omega
    have htn : (pureVal (t.take 242) % (2 : ℤ) ^ 384).toNat
        = 2 ^ 384 - valLimbs halfThree := by
      rw [hemod]
      omega
    rw [hcan, htn]
    rfl
  · rw [if_neg hall]
    dsimp only
    have hInit : HInv (List.replicate 12 0, 1) 0 := by
      refine ⟨by simp, ?_, le_rfl, by norm_num, ?_, ?_⟩
      · intro d hd
        rw [List.eq_of_mem_replicate hd]
        norm_num
      · exact valLimbs_all_zero fun d hd => List.eq_of_mem_replicate hd
      · intro d hd
        exact List.eq_of_mem_replicate (List.drop_subset _ _ hd)
    have hBnd : foldDigits 0 (t.take 242).reverse < 2 ^ 384 := by
      rw [foldDigits_reverse]
      omega
    have hfold := fold_hstep_inv (t.take 242).reverse _ 0 hInit hBnd
    rw [foldDigits_reverse] at hfold
    obtain ⟨f1, f2, f3, f4, f5, f6⟩ := hfold
    have hDne : digitsVal (t.take 242) ≠ 0 := by
      intro hz
      have hallp := (digitsVal_zero_iff _ htf).mp hz
      apply hall
      exact List.all_eq_true.mpr fun e he => by simp [hallp e he]
    have hnull : bigintIsNull
        ((t.take 242).reverse.foldl hstep (List.replicate 12 0, 1)).1
        = false := by
      by_contra hc
      have hc' : bigintIsNull
          ((t.take 242).reverse.foldl hstep (List.replicate 12 0, 1)).1
          = true := by
        revert hc
        cases bigintIsNull
          ((t.take 242).reverse.foldl hstep (List.replicate 12 0, 1)).1 <;>
          simp
      have hzero : ∀ d ∈
          ((t.take 242).reverse.foldl hstep (List.replicate 12 0, 1)).1,
          d = 0 := by
        intro d hd
        have hh := List.all_eq_true.mp hc' d hd
        simpa using hh
      have hv0 := valLimbs_all_zero hzero
      rw [f5] at hv0
      exact hDne hv0
    rw [if_neg (show ¬ bigintIsNull
      ((t.take 242).reverse.foldl hstep (List.replicate 12 0, 1)).1 = true
      by rw [hnull]; exact Bool.false_ne_true)]
    by_cases hge : valLimbs halfThree ≤ digitsVal (t.take 242)
    · have hcmp : bigintMustCmp halfThree
          ((t.take 242).reverse.foldl hstep (List.replicate 12 0, 1)).1
          ≤ 0 := by
        unfold bigintMustCmp
        rw [f5]
        split_ifs <;> omega
      rw [if_pos hcmp]
      unfold bigintMustSub
      rw [f5]
      have hxeq : pureVal (t.take 242)
          = (digitsVal (t.take 242) : ℤ) - valLimbs halfThree := by omega
      have hemod : pureVal (t.take 242) % (2 : ℤ) ^ 384
          = pureVal (t.take 242) := by
        apply Int.emod_eq_of_lt <;> omega
      have htn : (pureVal (t.take 242) % (2 : ℤ) ^ 384).toNat
          = digitsVal (t.take 242) - valLimbs halfThree := by
        rw [hemod]
        omega
      rw [htn]
      rfl
    · push_neg at hge
      have hcmp : ¬ bigintMustCmp halfThree
          ((t.take 242).reverse.foldl hstep (List.replicate 12 0, 1)).1
          ≤ 0 := by
        unfold bigintMustCmp
        rw [f5]
        split_ifs <;> omega
      rw [if_neg hcmp]
      unfold bigintMustSub
      rw [f5]
      obtain ⟨t1, t2, t3⟩ :=
        natToLimbs_facts (valLimbs halfThree - digitsVal (t.take 242))
      have ht3 : valLimbs
          (natToLimbs (valLimbs halfThree - digitsVal (t.take 242)))
          = valLimbs halfThree - digitsVal (t.take 242) := by
        rw [t3, Nat.mod_eq_of_lt (by omega)]
      obtain ⟨n1, n2, n3⟩ := bigintNot_facts _ t2
      rw [t1] at n1 n3
      rw [ht3] at n3
      obtain ⟨s1, s2, s3, s4, s5⟩ := bigintAddSmall_facts _ 1 n2
      rw [n1, n3] at s3
      have hval_out : valLimbs (bigintAddSmall (bigintNot
          (natToLimbs (valLimbs halfThree - digitsVal (t.take 242)))) 1).1
          = 2 ^ 384 - (valLimbs halfThree - digitsVal (t.take 242)) := by
        rw [s3, show (2 : ℕ) ^ (32 * 12) = 2 ^ 384 from rfl]
        have he1 : 2 ^ 384 - 1 -
            (valLimbs halfThree - digitsVal (t.take 242)) + 1
            = 2 ^ 384 - (valLimbs halfThree - digitsVal (t.take 242)) := by
          omega
        rw [he1, Nat.mod_eq_of_lt (by omega)]
      have hcan : (bigintAddSmall (bigintNot
          (natToLimbs (valLimbs halfThree - digitsVal (t.take 242)))) 1).1
          = natToLimbs
            (2 ^ 384 - (valLimbs halfThree - digitsVal (t.take 242))) := by
        rw [← hval_out]
        exact (limbs_canonical (by rw [s1, n1]) s2).symm
      rw [hcan]
      have hxeq : pureVal (t.take 242)
          = (digitsVal (t.take 242) : ℤ) - valLimbs halfThree := by omega
      have hemod : pureVal (t.take 242) % (2 : ℤ) ^ 384
          = pureVal (t.take 242) + 2 ^ 384 := by
        conv_lhs => rw [show pureVal (t.take 242)
          = (pureVal (t.take 242) + 2 ^ 384) + 2 ^ 384 * (-1) by ring]
        rw [Int.add_mul_emod_self_left]
        apply Int.emod_eq_of_lt <;> omega
      have htn : (pureVal (t.take 242) % (2 : ℤ) ^ 384).toNat
          = 2 ^ 384 - (valLimbs halfThree - digitsVal (t.take 242)) := by
        rw [hemod]
        omega
      rw [htn]
      rfl


/-- Big-endian value of a limb list. -/
def valBE (l : List ℕ) : ℕ := l.foldl (fun a d => a * 2 ^ 32 + d) 0

theorem valBE_acc : ∀ (l : List ℕ) (a : ℕ),
    l.foldl (fun a d => a * 2 ^ 32 + d) a = a * 2 ^ (32 * l.length) + valBE l := by
  intro l
  induction l with
  | nil =>
    intro a
    simp [valBE]
  | cons d tl ih =>
    intro a
    show List.foldl _ (a * 2 ^ 32 + d) tl = _
    rw [ih (a * 2 ^ 32 + d)]
    have hv : valBE (d :: tl) = d * 2 ^ (32 * tl.length) + valBE tl := by
      show List.foldl _ (0 * 2 ^ 32 + d) tl = _
      rw [show 0 * 2 ^ 32 + d = d by ring, ih d]
    rw [List.length_cons, hv, pow32_succ]
    ring

theorem valBE_cons (d : ℕ) (l : List ℕ) :
    valBE (d :: l) = d * 2 ^ (32 * l.length) + valBE l := by
  show List.foldl _ (0 * 2 ^ 32 + d) l = _
  rw [show 0 * 2 ^ 32 + d = d by ring, valBE_acc l d]

theorem valLimbs_eq_valBE_reverse : ∀ l : List ℕ,
    valLimbs l = valBE l.reverse := by
  intro l
  induction l with
  | nil => rfl
  | cons d tl ih =>
    rw [valLimbs_cons, ih, List.reverse_cons]
    show _ = List.foldl _ 0 (tl.reverse ++ [d])
    rw [List.foldl_append]
    show _ = valBE tl.reverse * 2 ^ 32 + d
    ring

theorem divStepBE_facts : ∀ (ds : List ℕ) (rem : ℕ), rem < 3 →
    (∀ d ∈ ds, d < 2 ^ 32) →
    (divStepBE rem ds).1.length = ds.length ∧
    (∀ q ∈ (divStepBE rem ds).1, q < 2 ^ 32) ∧
    (divStepBE rem ds).2 < 3 ∧
    3 * valBE (divStepBE rem ds).1 + (divStepBE rem ds).2 =
      rem * 2 ^ (32 * ds.length) + valBE ds := by
  intro ds
  induction ds with
  | nil =>
    intro rem hr _
    refine ⟨rfl, by simp [divStepBE], hr, ?_⟩
    simp [divStepBE, valBE]
  | cons d tl ih =>
    intro rem hr hb
    have hd := hb d (List.mem_cons_self d tl)
    have hbt := fun x hx => hb x (List.mem_cons_of_mem d hx)
    have hrm : (rem * 2 ^ 32 + d) % 3 < 3 := Nat.mod_lt _ (by norm_num)
    obtain ⟨i1, i2, i3, i4⟩ := ih ((rem * 2 ^ 32 + d) % 3) hrm hbt
    have hq : (rem * 2 ^ 32 + d) / 3 < 2 ^ 32 := by omega
    refine ⟨?_, ?_, by simpa [divStepBE] using i3, ?_⟩
    · show ((rem * 2 ^ 32 + d) / 3 ::
          (divStepBE ((rem * 2 ^ 32 + d) % 3) tl).1).length = (d :: tl).length
      rw [List.length_cons, List.length_cons, i1]
    · intro x hx
      simp only [divStepBE, List.mem_cons] at hx
      rcases hx with rfl | hx
      · exact hq
      · exact i2 x hx
    · show 3 * valBE ((rem * 2 ^ 32 + d) / 3 ::
          (divStepBE ((rem * 2 ^ 32 + d) % 3) tl).1) +
          (divStepBE ((rem * 2 ^ 32 + d) % 3) tl).2 = _
      rw [valBE_cons, i1, List.length_cons, valBE_cons]
      have hdm := Nat.div_add_mod (rem * 2 ^ 32 + d) 3
      calc 3 * ((rem * 2 ^ 32 + d) / 3 * 2 ^ (32 * tl.length) +
              valBE (divStepBE ((rem * 2 ^ 32 + d) % 3) tl).1) +
            (divStepBE ((rem * 2 ^ 32 + d) % 3) tl).2
          = (rem * 2 ^ 32 + d) / 3 * 3 * 2 ^ (32 * tl.length) +
            (3 * valBE (divStepBE ((rem * 2 ^ 32 + d) % 3) tl).1 +
              (divStepBE ((rem * 2 ^ 32 + d) % 3) tl).2) := by ring
        _ = (rem * 2 ^ 32 + d) / 3 * 3 * 2 ^ (32 * tl.length) +
            ((rem * 2 ^ 32 + d) % 3 * 2 ^ (32 * tl.length) + valBE tl) := by
            rw [i4]
        _ = ((rem * 2 ^ 32 + d) / 3 * 3 + (rem * 2 ^ 32 + d) % 3) *
              2 ^ (32 * tl.length) + valBE tl := by ring
        _ = (rem * 2 ^ 32 + d) * 2 ^ (32 * tl.length) + valBE tl := by
            rw [show (rem * 2 ^ 32 + d) / 3 * 3 + (rem * 2 ^ 32 + d) % 3
              = rem * 2 ^ 32 + d by omega]
        _ = rem * 2 ^ (32 * (tl.length + 1)) +
              (d * 2 ^ (32 * tl.length) + valBE tl) := by
            rw [pow32_succ]
            ring

theorem divmod3_facts (l : List ℕ) (h12 : l.length = 12)
    (hb : ∀ d ∈ l, d < 2 ^ 32) :
    (divmod3 l).1.length = 12 ∧ (∀ d ∈ (divmod3 l).1, d < 2 ^ 32) ∧
    valLimbs (divmod3 l).1 = valLimbs l / 3 ∧
    (divmod3 l).2 = valLimbs l % 3 := by
  have hbr : ∀ d ∈ l.reverse, d < 2 ^ 32 := by
    intro d hd
    exact hb d (List.mem_reverse.mp hd)
  obtain ⟨i1, i2, i3, i4⟩ := divStepBE_facts l.reverse 0 (by norm_num) hbr
  rw [List.length_reverse, h12] at i1
  rw [← valLimbs_eq_valBE_reverse] at i4
  have hq : valLimbs (divmod3 l).1 = valBE (divStepBE 0 l.reverse).1 := by
    show valLimbs (divStepBE 0 l.reverse).1.reverse = _
    rw [valLimbs_eq_valBE_reverse, List.reverse_reverse]
  refine ⟨?_, ?_, ?_, ?_⟩
  · show (divStepBE 0 l.reverse).1.reverse.length = 12
    rw [List.length_reverse, i1]
  · intro d hd
    exact i2 d (List.mem_reverse.mp hd)
  · rw [hq]
    omega
  · show (divStepBE 0 l.reverse).2 = _
    omega

theorem extract_digits : ∀ (k : ℕ) (l : List ℕ), l.length = 12 →
    (∀ d ∈ l, d < 2 ^ 32) →
    extract k l = (List.range k).map
      (fun i => ((valLimbs l / 3 ^ i % 3 : ℕ) : ℤ) - 1) := by
  intro k
  induction k with
  | zero => intro l _ _; rfl
  | succ m ih =>
    intro l h12 hb
    obtain ⟨d1, d2, d3, d4⟩ := divmod3_facts l h12 hb
    show (((divmod3 l).2 : ℤ) - 1) :: extract m (divmod3 l).1 = _
    rw [List.range_succ_eq_map, List.map_cons]
    congr 1
    · rw [d4]
      norm_num
    · rw [ih _ d1 d2, d3, List.map_map]
      apply List.map_congr_left
      intro i _
      simp only [Function.comp]
      congr 2
      rw [Nat.div_div_eq_div_mul]
      congr 1
      rw [pow_succ]
      ring

theorem digitsVal_digit : ∀ (l : List ℤ), tritList l → ∀ i, i < l.length →
    digitsVal l / 3 ^ i % 3 = (l.getD i 0 + 1).toNat := by
  intro l
  induction l with
  | nil => intro _ i hi; simp at hi
  | cons e tl ih =>
    intro h i hi
    have he := h e (List.mem_cons_self e tl)
    have ht := fun x hx => h x (List.mem_cons_of_mem e hx)
    have hd : (e + 1).toNat < 3 := by
      rcases he with rfl | rfl | rfl <;> decide
    cases i with
    | zero =>
      rw [pow_zero, Nat.div_one, List.getD_cons_zero, digitsVal_cons,
        Nat.mul_add_mod, Nat.mod_eq_of_lt hd]
    | succ j =>
      have hj : j < tl.length := by simpa using hi
      rw [digitsVal_cons, List.getD_cons_succ,
        show (3 : ℕ) ^ (j + 1) = 3 * 3 ^ j by rw [pow_succ]; ring,
        ← Nat.div_div_eq_div_mul,
        show (3 * digitsVal tl + (e + 1).toNat) / 3 = digitsVal tl by omega]
      exact ih ht j hj

theorem bytesToLimbs_limbsToBytes : ∀ (l : List ℕ), (∀ d ∈ l, d < 2 ^ 32) →
    bytesToLimbsLE (limbsToBytesLE l) = l := by
  intro l
  induction l with
  | nil => intro _; rfl
  | cons d tl ih =>
    intro hb
    have hd := hb d (List.mem_cons_self d tl)
    have hbt := fun x hx => hb x (List.mem_cons_of_mem d hx)
    show (d % 256 + 256 * (d / 256 % 256) + 2 ^ 16 * (d / 2 ^ 16 % 256)
        + 2 ^ 24 * (d / 2 ^ 24 % 256)) :: bytesToLimbsLE (limbsToBytesLE tl)
        = d :: tl
    rw [ih hbt]
    congr 1
    omega

theorem limbsToBytesLE_length : ∀ l : List ℕ,
    (limbsToBytesLE l).length = 4 * l.length := by
  intro l
  induction l with
  | nil => rfl
  | cons d tl ih =>
    show (limbsToBytesLE tl).length + 1 + 1 + 1 + 1 = 4 * (tl.length + 1)
    omega

theorem getD_limbs : ∀ (k n i : ℕ), i < k →
    (natToLimbsAux k n).getD i 0 = n / 2 ^ (32 * i) % 2 ^ 32 := by
  intro k
  induction k with
  | zero => intro n i hi; omega
  | succ m ih =>
    intro n i hi
    cases i with
    | zero =>
      show (n % 2 ^ 32 :: natToLimbsAux m (n / 2 ^ 32)).getD 0 0 = _
      rw [List.getD_cons_zero]
      norm_num
    | succ j =>
      show (n % 2 ^ 32 :: natToLimbsAux m (n / 2 ^ 32)).getD (j + 1) 0 = _
      rw [List.getD_cons_succ, ih _ j (by omega), Nat.div_div_eq_div_mul,
        show (2 : ℕ) ^ 32 * 2 ^ (32 * j) = 2 ^ (32 * (j + 1)) from
          (pow32_succ j).symm]

theorem getD_natToLimbs (n i : ℕ) (hi : i < 12) :
    (natToLimbs n).getD i 0 = n / 2 ^ (32 * i) % 2 ^ 32 :=
  getD_limbs 12 n i hi

theorem pureVal_zero_all_zero : ∀ (l : List ℤ), tritList l →
    pureVal l = 0 → ∀ e ∈ l, e = 0 := by
  intro l
  induction l with
  | nil => intro _ _ e he; simp at he
  | cons d tl ih =>
    intro h hz e he
    have hd := h d (List.mem_cons_self d tl)
    have ht := fun x hx => h x (List.mem_cons_of_mem d hx)
    rw [pureVal_cons] at hz
    have hd0 : d = 0 := by
      rcases hd with rfl | rfl | rfl <;> omega
    have htl : pureVal tl = 0 := by omega
    rcases List.mem_cons.mp he with rfl | he
    · exact hd0
    · exact ih ht htl e he


theorem emod384_neg {x : ℤ} (h1 : -(2 ^ 384) ≤ x) (h2 : x < 0) :
    x % (2 : ℤ) ^ 384 = x + 2 ^ 384 := by
  conv_lhs => rw [show x = (x + 2 ^ 384) + 2 ^ 384 * (-1) by ring]
  rw [Int.add_mul_emod_self_left]
  exact Int.emod_eq_of_lt (by omega) (by omega)

/-- The 242-trit extraction loop recovers the trits from their unbalanced
digit value. -/
theorem extract_natToLimbs_digits (l : List ℤ) (hl : tritList l)
    (h242 : l.length = 242) (hD : digitsVal l < 2 ^ 384) :
    extract 242 (natToLimbs (digitsVal l)) = l := by
  obtain ⟨e1, e2, e3⟩ := natToLimbs_facts (digitsVal l)
  have hvD : valLimbs (natToLimbs (digitsVal l)) = digitsVal l := by
    rw [e3, Nat.mod_eq_of_lt hD]
  rw [extract_digits 242 _ e1 e2, hvD]
  apply List.ext_getElem
  · rw [List.length_map, List.length_range, h242]
  · intro i h1 h2
    rw [List.getElem_map, List.getElem_range]
    have hi : i < 242 := by
      rw [List.length_map, List.length_range] at h1
      exact h1
    rw [digitsVal_digit _ hl i (by omega),
      List.getD_eq_getElem _ _ (by omega)]
    have he := hl _ (List.getElem_mem h2)
    rcases he with h | h | h <;> rw [h] <;> decide

theorem emod384_toNat (x : ℤ) (hb1 : 2 * x ≤ 3 ^ 242 - 1)
    (hb2 : -(3 ^ 242 - 1) ≤ 2 * x) :
    (x % (2 : ℤ) ^ 384).toNat < 2 ^ 384 ∧
    (0 ≤ x → ((x % (2 : ℤ) ^ 384).toNat : ℤ) = x) ∧
    (x < 0 → ((x % (2 : ℤ) ^ 384).toNat : ℤ) = x + 2 ^ 384) := by
  have hxlt : x < 2 ^ 384 := by omega
  have hxgt : -(2 ^ 384) ≤ x := by omega
  rcases le_or_lt 0 x with hx | hx
  · have hme : x % (2 : ℤ) ^ 384 = x := Int.emod_eq_of_lt hx hxlt
    rw [hme]
    exact ⟨by omega, fun _ => by omega, fun hc => absurd hc (by omega)⟩
  · have hme : x % (2 : ℤ) ^ 384 = x + 2 ^ 384 := emod384_neg hxgt hx
    rw [hme]
    exact ⟨by omega, fun hc => absurd hc (by omega), fun _ => by omega⟩

theorem BytesToTrits_beBytes (t : List ℤ) (hlen : t.length = 243)
    (ht : tritList t) :
    BytesToTrits (beBytes48 (pureVal (t.take 242) % (2 : ℤ) ^ 384).toNat) =
      some (t.take 242 ++ [0]) := by
  have hfl : (t.take 242).length = 242 := by
    rw [List.length_take, hlen]
    omega
  have htf : tritList (t.take 242) := fun x hx => ht x (List.take_subset _ _ hx)
  obtain ⟨hxu, hxl⟩ := pureVal_bound (t.take 242) htf
  rw [hfl] at hxu hxl
  have hdv := digitsVal_pureVal (t.take 242) htf
  rw [hfl] at hdv
  have hdl := digitsVal_le (t.take 242) htf
  rw [hfl] at hdl
  have h3d := halfThree_double
  have h3lt := halfThree_lt
  have hp242 := pow3_242_lt
  obtain ⟨hu384, hupos, huneg⟩ := emod384_toNat (pureVal (t.take 242)) hxu hxl
  generalize hgen : (pureVal (t.take 242) % (2 : ℤ) ^ 384).toNat = u
    at hu384 hupos huneg ⊢
  clear hgen
  obtain ⟨g1, g2, g3⟩ := natToLimbs_facts u
  have hvu : valLimbs (natToLimbs u) = u := by
    rw [g3, Nat.mod_eq_of_lt hu384]
  have hxeq : pureVal (t.take 242)
      = (digitsVal (t.take 242) : ℤ) - valLimbs halfThree := by omega
  unfold BytesToTrits
  dsimp only
  have hblen : (beBytes48 u).length = 48 := by
    unfold beBytes48
    rw [List.length_reverse, limbsToBytesLE_length, g1]
  rw [if_neg (by rw [hblen]; exact fun hc => hc rfl)]
  have hbase : bytesToLimbsLE (beBytes48 u).reverse = natToLimbs u := by
    unfold beBytes48
    rw [List.reverse_reverse, bytesToLimbs_limbsToBytes _ g2]
  rw [hbase]
  by_cases hu0 : u = 0
  · have hx0 : pureVal (t.take 242) = 0 := by
      rcases le_or_lt 0 (pureVal (t.take 242)) with hx | hx
      · have hp := hupos hx
        omega
      · have hn := huneg hx
        omega
    have hrep : t.take 242 = List.replicate 242 0 :=
      List.eq_replicate_iff.mpr
        ⟨hfl, pureVal_zero_all_zero _ htf hx0⟩
    rw [hu0, if_pos (by decide), hrep]
    rfl
  · have hnull : bigintIsNull (natToLimbs u) = false := by
      by_contra hc
      have hc' : bigintIsNull (natToLimbs u) = true := by
        revert hc
        cases bigintIsNull (natToLimbs u) <;> simp
      have hzero : ∀ d ∈ natToLimbs u, d = 0 := by
        intro d hd
        have hh := List.all_eq_true.mp hc' d hd
        simpa using hh
      have hv0 := valLimbs_all_zero hzero
      rw [hvu] at hv0
      exact hu0 hv0
    rw [if_neg (show ¬ bigintIsNull (natToLimbs u) = true
      by rw [hnull]; exact Bool.false_ne_true)]
    have hDlt : digitsVal (t.take 242) < 2 ^ 384 := by omega
    have hext := extract_natToLimbs_digits (t.take 242) htf hfl hDlt
    by_cases hge : valLimbs halfThree ≤ digitsVal (t.take 242)
    · have hxnn : 0 ≤ pureVal (t.take 242) := by omega
      have hp := hupos hxnn
      have huval : u = digitsVal (t.take 242) - valLimbs halfThree := by
        omega
      have hmsb : (natToLimbs u).getD 11 0 / 2 ^ 31 = 0 := by
        rw [getD_natToLimbs _ 11 (by norm_num), huval]
        omega
      rw [if_pos hmsb]
      dsimp only
      have hadd : bigintMustAdd (natToLimbs u) halfThree
          = natToLimbs (digitsVal (t.take 242)) := by
        unfold bigintMustAdd
        rw [hvu]
        have he : u + valLimbs halfThree = digitsVal (t.take 242) := by omega
        rw [he, Nat.mod_eq_of_lt hDlt]
      rw [hadd, hext, if_neg Bool.false_ne_true]
    · push_neg at hge
      have hxneg : pureVal (t.take 242) < 0 := by omega
      have hn := huneg hxneg
      have huval : u
          = 2 ^ 384 - (valLimbs halfThree - digitsVal (t.take 242)) := by
        omega
      have hmsb : ¬ ((natToLimbs u).getD 11 0 / 2 ^ 31 = 0) := by
        rw [getD_natToLimbs _ 11 (by norm_num), huval]
        omega
      rw [if_neg hmsb]
      obtain ⟨n1, n2, n3⟩ := bigintNot_facts (natToLimbs u) g2
      rw [g1] at n1 n3
      have hvnb : valLimbs (bigintNot (natToLimbs u))
          = valLimbs halfThree - digitsVal (t.take 242) - 1 := by
        rw [n3, hvu, show (2 : ℕ) ^ (32 * 12) = 2 ^ 384 from rfl]
        omega
      have hcmp : ¬ (bigintMustCmp (bigintNot (natToLimbs u)) halfThree
          = 1) := by
        have hlt : valLimbs (bigintNot (natToLimbs u)) < valLimbs halfThree := by
          rw [hvnb]
          omega
        unfold bigintMustCmp
        rw [if_pos hlt]
        decide
      rw [if_neg hcmp]
      dsimp only
      obtain ⟨s1, s2, s3, s4, s5⟩ := bigintAddSmall_facts
        (bigintNot (natToLimbs u)) 1 n2
      rw [n1] at s3
      rw [hvnb] at s3
      have hvs : valLimbs (bigintAddSmall (bigintNot (natToLimbs u)) 1).1
          = valLimbs halfThree - digitsVal (t.take 242) := by
        rw [s3, show (2 : ℕ) ^ (32 * 12) = 2 ^ 384 from rfl,
          Nat.mod_eq_of_lt (by omega)]
        omega
      have hsub : bigintMustSub halfThree
          (bigintAddSmall (bigintNot (natToLimbs u)) 1).1
          = natToLimbs (digitsVal (t.take 242)) := by
        unfold bigintMustSub
        rw [hvs]
        have he2 : valLimbs halfThree
            - (valLimbs halfThree - digitsVal (t.take 242))
            = digitsVal (t.take 242) := by omega
        rw [he2]
      rw [hsub, hext, if_neg Bool.false_ne_true]

theorem lutFor_valid : ∀ c ∈ TryteAlphabet,
    (lutFor c).length = 3 ∧ tritList (lutFor c) := by decide

theorem lutConcat_facts : ∀ s : List Char, (∀ c ∈ s, c ∈ TryteAlphabet) →
    (lutConcat s).length = 3 * s.length ∧ tritList (lutConcat s) := by
  intro s
  induction s with
  | nil =>
    intro _
    exact ⟨rfl, fun x hx => absurd hx (List.not_mem_nil x)⟩
  | cons c cs ih =>
    intro hmem
    obtain ⟨l3, lt3⟩ := lutFor_valid c (hmem c (List.mem_cons_self c cs))
    obtain ⟨ih1, ih2⟩ := ih (fun d hd => hmem d (List.mem_cons_of_mem c hd))
    have he : lutConcat (c :: cs) = lutFor c ++ lutConcat cs := rfl
    constructor
    · rw [he, List.length_append, l3, ih1, List.length_cons]
      ring
    · intro x hx
      rw [he] at hx
      rcases List.mem_append.mp hx with hx | hx
      · exact lt3 x hx
      · exact ih2 x hx

/-- C4: for every valid 81-tryte hash, converting trytes to trits, trits to
bytes, and bytes back to trits succeeds at every step and returns the
original 243 trits with the final trit (index 242) forced to zero. -/
theorem C4_bytes_roundtrip (h : List Char) (hlen : h.length = 81)
    (hv : validTrytes h) :
    ∃ t b, TrytesToTrits h = some t ∧ TritsToBytes t = some b ∧
      BytesToTrits b = some (t.take 242 ++ [0]) := by
  obtain ⟨hL, hT⟩ := lutConcat_facts h hv.2
  rw [hlen] at hL
  have hL' : (lutConcat h).length = 243 := hL
  refine ⟨lutConcat h,
    beBytes48 (pureVal ((lutConcat h).take 242) % (2 : ℤ) ^ 384).toNat,
    ?_, ?_, ?_⟩
  · unfold TrytesToTrits
    rw [if_pos hv]
  · exact TritsToBytes_val (lutConcat h) hL' hT
  · exact BytesToTrits_beBytes (lutConcat h) hL' hT

theorem C4_bytes_roundtrip_witness :
    ∃ t b, TrytesToTrits (List.replicate 81 (Char.ofNat 57)) = some t ∧
      TritsToBytes t = some b ∧ BytesToTrits b = some (t.take 242 ++ [0]) :=
  C4_bytes_roundtrip (List.replicate 81 (Char.ofNat 57)) (by decide)
    (by decide)

theorem beBytes48_headD_raw (u : ℕ) :
    (beBytes48 u).headD 0
      = u / 2 ^ 32 / 2 ^ 32 / 2 ^ 32 / 2 ^ 32 / 2 ^ 32 / 2 ^ 32 / 2 ^ 32
          / 2 ^ 32 / 2 ^ 32 / 2 ^ 32 / 2 ^ 32 % 2 ^ 32 / 2 ^ 24 % 256 := rfl

theorem beBytes48_first (u : ℕ) (hu : u < 2 ^ 384) :
    (beBytes48 u).headD 0 = u / 2 ^ 376 := by
  rw [beBytes48_headD_raw]
  omega

set_option maxRecDepth 20000 in
/-- C1 refutation: on the 243-trit input with first trit -1 and the rest 0
(so x = -1 and the final trit is 0), TritsToBytes outputs 48 bytes of 0xFF,
which is not the big-endian representation of x + HALF_THREE, and whose
first byte has its high bit set. -/
theorem C1_counterexample :
    TritsToBytes ((-1) :: List.replicate 242 (0 : ℤ))
        = some (List.replicate 48 255) ∧
      List.replicate 48 255 ≠ beBytes48 (valLimbs halfThree - 1) ∧
      2 ^ 7 ≤ (List.replicate 48 255).headD 0 := by
  have h := TritsToBytes_val ((-1) :: List.replicate 242 (0 : ℤ))
    (by decide) (by decide)
  have hpv : pureVal (((-1) :: List.replicate 242 (0 : ℤ)).take 242)
      = -1 := by decide
  rw [hpv] at h
  refine ⟨?_, by decide, by decide⟩
  rw [h]
  decide

/-- C1 (amended): for every valid 243-trit input, the 48-byte output of
TritsToBytes is the big-endian two's-complement representation of
x mod 2^384, where x is the balanced-ternary value of the first 242 trits;
the high bit of the first byte is set exactly when x is negative. -/
theorem C1_wire_format (t : List ℤ) (hlen : t.length = 243)
    (ht : tritList t) :
    TritsToBytes t
        = some (beBytes48 (pureVal (t.take 242) % (2 : ℤ) ^ 384).toNat) ∧
      (2 ^ 7 ≤ (beBytes48
            (pureVal (t.take 242) % (2 : ℤ) ^ 384).toNat).headD 0
        ↔ pureVal (t.take 242) < 0) := by
  refine ⟨TritsToBytes_val t hlen ht, ?_⟩
  have hfl : (t.take 242).length = 242 := by
    rw [List.length_take, hlen]
    omega
  have htf : tritList (t.take 242) := fun x hx => ht x (List.take_subset _ _ hx)
  obtain ⟨hxu, hxl⟩ := pureVal_bound (t.take 242) htf
  rw [hfl] at hxu hxl
  have hp242 := pow3_242_lt
  obtain ⟨hu384, hupos, huneg⟩ := emod384_toNat (pureVal (t.take 242)) hxu hxl
  rw [beBytes48_first _ hu384]
  rcases le_or_lt 0 (pureVal (t.take 242)) with hx | hx
  · have hp := hupos hx
    omega
  · have hn := huneg hx
    omega

theorem C1_wire_format_witness :
    TritsToBytes (List.replicate 243 (0 : ℤ))
        = some (beBytes48
            (pureVal ((List.replicate 243 (0 : ℤ)).take 242)
              % (2 : ℤ) ^ 384).toNat) ∧
      (2 ^ 7 ≤ (beBytes48
            (pureVal ((List.replicate 243 (0 : ℤ)).take 242)
              % (2 : ℤ) ^ 384).toNat).headD 0
        ↔ pureVal ((List.replicate 243 (0 : ℤ)).take 242) < 0) :=
  C1_wire_format (List.replicate 243 0) (by decide)
    (fun x hx => by
      have hh := List.eq_of_mem_replicate hx
      right
      left
      exact hh)

/-- Modelled from the spec: consts.HashTrinarySize. -/
def HashTrinarySize : ℕ := 243

/-- Modelled from the spec: consts.NonceTrinarySize. -/
def NonceTrinarySize : ℕ := 81

/-- Modelled from the spec: consts.TransactionTrinarySize. -/
def TransactionTrinarySize : ℕ := 8019

/-- Modelled from the spec: curl.StateSize. -/
def StateSize : ℕ := 729

/-- Modelled from the spec: curl.NumberOfRounds. -/
def NumberOfRounds : ℕ := 27

/-- All 64 bits set; uint64 values are naturals below 2^64. -/
def mask : ℕ := 2 ^ 64 - 1

/-- hBits (pow package). -/
def hBits : ℕ := 0xFFFFFFFFFFFFFFFF

/-- lBits (pow package). -/
def lBits : ℕ := 0x0000000000000000

/-- Nonce seed constants (pow package). -/
def low0 : ℕ := 0xDB6DB6DB6DB6DB6D

def high0 : ℕ := 0xB6DB6DB6DB6DB6DB

def low1 : ℕ := 0xF1F8FC7E3F1F8FC7

def high1 : ℕ := 0x8FC7E3F1F8FC7E3F

def low2 : ℕ := 0x7FFFE00FFFFC01FF

def high2 : ℕ := 0xFFC01FFFF803FFFF

def low3 : ℕ := 0xFFC0000007FFFFFF

def high3 : ℕ := 0x003FFFFFFFFFFFFF

/-- nonceOffset (pow package). -/
def nonceOffset : ℕ := HashTrinarySize - NonceTrinarySize

/-- nonceInitStart (pow package). -/
def nonceInitStart : ℕ := nonceOffset + 4

/-- nonceIncrementStart (pow package). -/
def nonceIncrementStart : ℕ := nonceInitStart + NonceTrinarySize / 3

/-- The low word written by para for one trit (switch body; a non-trit
leaves the zero-initialized word). -/
def paraL (t : ℤ) : ℕ :=
  if t = 0 then hBits else if t = 1 then lBits else if t = -1 then hBits
  else 0

/-- The high word written by para for one trit. -/
def paraH (t : ℤ) : ℕ :=
  if t = 0 then hBits else if t = 1 then hBits else if t = -1 then lBits
  else 0

/-- para (pow package): bit-slice a 729-trit state into per-lane low and
high words. -/
def para (s : List ℤ) : List ℕ × List ℕ := (s.map paraL, s.map paraH)

/-- The four seed-lane overwrites performed by each goProofOfWork worker. -/
def applySeeds (p : List ℕ × List ℕ) : List ℕ × List ℕ :=
  ((((p.1.set nonceOffset low0).set (nonceOffset + 1) low1).set
      (nonceOffset + 2) low2).set (nonceOffset + 3) low3,
   (((p.2.set nonceOffset high0).set (nonceOffset + 1) high1).set
      (nonceOffset + 2) high2).set (nonceOffset + 3) high3)

/-- The shared inner loop of incr and incrN on a window of lanes: while the
carry word is nonzero, each lane (low, high) becomes (high xor low, low)
and the carry becomes high and (not low); returns the updated window
words, the final carry word, and the number of lanes processed. -/
def wincrAux : List ℕ → List ℕ → ℕ → List ℕ × List ℕ × ℕ × ℕ
  | l :: ls, h :: hs, c =>
    if c = 0 then (l :: ls, h :: hs, 0, 0)
    else
      let rest := wincrAux ls hs (h &&& (l ^^^ mask))
      ((h ^^^ l) :: rest.1, l :: rest.2.1, rest.2.2.1, rest.2.2.2 + 1)
  | ls, hs, c => (ls, hs, c, 0)

/-- A carry loop over the lanes in [s, e), spliced back into the state;
also returns the final carry word and the processed-lane count. -/
def incrWindow (s e : ℕ) (p : List ℕ × List ℕ) :
    (List ℕ × List ℕ) × ℕ × ℕ :=
  let lw := (p.1.drop s).take (e - s)
  let hw := (p.2.drop s).take (e - s)
  let r := wincrAux lw hw 1
  ((p.1.take s ++ r.1 ++ p.1.drop e, p.2.take s ++ r.2.1 ++ p.2.drop e),
   r.2.2.1, r.2.2.2)

/-- incr (pow package): one counter step over lanes
[nonceInitStart, HashTrinarySize); the Boolean result is true exactly when
the loop index reached HashTrinarySize, i.e. every lane of the window was
processed. -/
def incr (p : List ℕ × List ℕ) : (List ℕ × List ℕ) × Bool :=
  let r := incrWindow nonceInitStart HashTrinarySize p
  (r.1, r.2.2 == HashTrinarySize - nonceInitStart)

/-- One iteration of the incrN outer loop: a counter step over lanes
[nonceInitStart, nonceIncrementStart). -/
def incrNstep (p : List ℕ × List ℕ) : List ℕ × List ℕ :=
  (incrWindow nonceInitStart nonceIncrementStart p).1

/-- incrN (pow package). -/
def incrN : ℕ → List ℕ × List ℕ → List ℕ × List ℕ
  | 0, p => p
  | n + 1, p => incrN n (incrNstep p)

/-- Modelled from the spec: the curl.Indices rotation sequence, starting at
0 and stepping by +364 below 365 and by -365 otherwise. -/
def curlIndicesAux : ℕ → ℕ → List ℕ
  | 0, _ => []
  | k + 1, c => c :: curlIndicesAux k (if c < 365 then c + 364 else c - 365)

/-- Modelled from the spec: curl.Indices (StateSize + 1 entries). -/
def curlIndices : List ℕ := curlIndicesAux (StateSize + 1) 0

/-- One round of transform64: the bit-sliced curl S-box applied to every
lane pair given by the index table. -/
def roundFn (p : List ℕ × List ℕ) : List ℕ × List ℕ :=
  ((List.range StateSize).map (fun j =>
      let t1 := curlIndices.getD j 0
      let t2 := curlIndices.getD (j + 1) 0
      let alpha := p.1.getD t1 0
      let beta := p.2.getD t1 0
      let gamma := p.2.getD t2 0
      let delta := (alpha ||| (gamma ^^^ mask)) &&& ((p.1.getD t2 0) ^^^ beta)
      delta ^^^ mask),
   (List.range StateSize).map (fun j =>
      let t1 := curlIndices.getD j 0
      let t2 := curlIndices.getD (j + 1) 0
      let alpha := p.1.getD t1 0
      let beta := p.2.getD t1 0
      let gamma := p.2.getD t2 0
      let delta := (alpha ||| (gamma ^^^ mask)) &&& ((p.1.getD t2 0) ^^^ beta)
      (alpha ^^^ gamma) ||| delta))

/-- Iterated rounds of the bit-sliced transform. -/
def iterRounds : ℕ → List ℕ × List ℕ → List ℕ × List ℕ
  | 0, p => p
  | n + 1, p => iterRounds n (roundFn p)

/-- transform64 (pow package): NumberOfRounds rounds in total (the source
runs NumberOfRounds - 1 in the loop and one more after it). -/
def transform64 (p : List ℕ × List ℕ) : List ℕ × List ℕ :=
  iterRounds NumberOfRounds p

/-- The seri decoding of one bit pair: (l, h) of (1, 0) is -1, (1, 1) is 0,
(0, 1) is 1, and the (0, 0) pair leaves the zero-initialized trit. -/
def decodeTrit (ll hh : ℕ) : ℤ :=
  if hh = 0 ∧ ll = 1 then -1
  else if hh = 1 ∧ ll = 1 then 0
  else if hh = 1 ∧ ll = 0 then 1
  else 0

/-- seri (pow package): decode bit n of the nonce lanes
[nonceOffset, HashTrinarySize). -/
def seri (p : List ℕ × List ℕ) (n : ℕ) : List ℤ :=
  (List.range NonceTrinarySize).map (fun k =>
    decodeTrit ((p.1.getD (nonceOffset + k) 0 >>> n) &&& 1)
      ((p.2.getD (nonceOffset + k) 0 >>> n) &&& 1))

/-- The trit sequence read off the increment window
[nonceInitStart, HashTrinarySize) at bit position n. -/
def decodeWindow (p : List ℕ × List ℕ) (n : ℕ) : List ℤ :=
  (List.range (HashTrinarySize - nonceInitStart)).map (fun k =>
    decodeTrit ((p.1.getD (nonceInitStart + k) 0 >>> n) &&& 1)
      ((p.2.getD (nonceInitStart + k) 0 >>> n) &&& 1))

/-- The probe loop of check: and the probe with not (l xor h) per lane,
failing as soon as it reaches zero. -/
def probeFold : ℕ → List ℕ → Option ℕ
  | probe, [] => some probe
  | probe, x :: xs =>
    let q := probe &&& (x ^^^ mask)
    if q = 0 then none else probeFold q xs

/-- The bit scan at the end of check. -/
def firstSetBitAux (probe : ℕ) : ℕ → ℕ → ℤ
  | 0, _ => -1
  | fuel + 1, i =>
    if (probe >>> i) &&& 1 = 1 then (i : ℤ)
    else firstSetBitAux probe fuel (i + 1)

/-- check (pow package): -1 if some trailing lane kills the probe, else the
index of the lowest surviving bit. -/
def check (p : List ℕ × List ℕ) (m : ℕ) : ℤ :=
  match probeFold hBits ((List.range m).map (fun k =>
      p.1.getD (HashTrinarySize - m + k) 0 ^^^
        p.2.getD (HashTrinarySize - m + k) 0)) with
  | none => -1
  | some probe => firstSetBitAux probe 64 0

/-- Modelled from the spec: the scalar curl S-box, as a function of the
lane pair read through the index table. -/
def curlS (a b : ℤ) : ℤ :=
  if a = -1 then (if b = -1 then 1 else if b = 0 then 1 else -1)
  else if a = 0 then (if b = -1 then 0 else if b = 0 then -1 else 1)
  else (if b = -1 then -1 else if b = 0 then 0 else 0)

/-- Modelled from the spec: one scalar curl round. -/
def curlRound (s : List ℤ) : List ℤ :=
  (List.range StateSize).map (fun j =>
    curlS (s.getD (curlIndices.getD j 0) 0)
      (s.getD (curlIndices.getD (j + 1) 0) 0))

/-- Modelled from the spec: iterated scalar curl rounds. -/
def curlIter : ℕ → List ℤ → List ℤ
  | 0, s => s
  | n + 1, s => curlIter n (curlRound s)

/-- Modelled from the spec: the scalar curl transform. -/
def curlTransform (s : List ℤ) : List ℤ := curlIter NumberOfRounds s

/-- Modelled from the spec: curl.Absorb over 243-trit chunks, with fuel
bounding the chunk count. -/
def curlAbsorbAux : ℕ → List ℤ → List ℤ → List ℤ
  | 0, st, _ => st
  | f + 1, st, msg =>
    if msg.length = 0 then st
    else
      curlAbsorbAux f
        (curlTransform ((msg.take HashTrinarySize) ++
          st.drop (msg.take HashTrinarySize).length))
        (msg.drop HashTrinarySize)

/-- Modelled from the spec: absorbing a message into the initial all-zero
curl state. -/
def curlAbsorb (msg : List ℤ) : List ℤ :=
  curlAbsorbAux (msg.length + 1) (List.replicate StateSize 0) msg

/-- The observable outcomes of goProofOfWork: the sentinel error, a Go
panic of a Must helper or slice bound, a found nonce with its rate, an
exhausted stripe, or running out of loop fuel. -/
inductive PowResult where
  | invalidTrytesErr : PowResult
  | panicked : PowResult
  | found : List Char → ℤ → PowResult
  | exhausted : ℤ → PowResult
  | outOfFuel : PowResult
deriving DecidableEq

/-- loop (pow package): repeatedly incr; on a full window report
exhaustion, otherwise transform a copy, check it, and either serialize the
nonce at the found bit or continue; fuel bounds the iteration count. -/
def powLoop (m : ℕ) : ℕ → List ℕ × List ℕ → ℕ → Option (Option (List ℤ) × ℤ)
  | 0, _, _ => none
  | fuel + 1, p, i =>
    let r := incr p
    if r.2 then some (none, (i : ℤ) * 64)
    else
      let q := transform64 r.1
      let n := check q m
      if 0 ≤ n then some (some (seri r.1 n.toNat), (i : ℤ) * 64)
      else powLoop m fuel r.1 (i + 1)

/-- goProofOfWork (pow package), modelling a single worker (goroutine 0,
so incrN is not applied) and ignoring cancellation; the curl absorption of
the transaction prefix is modelled from the spec. -/
def goProofOfWork (t : List Char) (m fuel : ℕ) : PowResult :=
  if t = [] then PowResult.invalidTrytesErr
  else if t.length < (TransactionTrinarySize - HashTrinarySize) / 3 then
    PowResult.panicked
  else
    match TrytesToTrits t with
    | none => PowResult.panicked
    | some tr =>
      let st0 := curlAbsorb (tr.take (TransactionTrinarySize - HashTrinarySize))
      let pre := (tr.drop (TransactionTrinarySize - HashTrinarySize)).take
        HashTrinarySize
      let st1 := pre ++ st0.drop pre.length
      let p0 := applySeeds (para st1)
      match powLoop m fuel p0 0 with
      | none => PowResult.outOfFuel
      | some (none, r) => PowResult.exhausted r
      | some (some nonce, r) =>
        match TritsToTrytes nonce with
        | none => PowResult.panicked
        | some str => PowResult.found str r

/-- C9: goProofOfWork returns the sentinel PoW error exactly when the
trytes input is empty; every non-empty input takes one of the other exits
(a panic, a found nonce, an exhausted stripe, or fuel running out). -/
theorem C9_empty_trytes (t : List Char) (m fuel : ℕ) :
    goProofOfWork t m fuel = PowResult.invalidTrytesErr ↔ t = [] := by
  constructor
  · intro h
    by_contra hne
    rw [goProofOfWork, if_neg hne] at h
    split at h
    · exact PowResult.noConfusion h
    · split at h
      · exact PowResult.noConfusion h
      · dsimp only at h
        split at h
        · exact PowResult.noConfusion h
        · exact PowResult.noConfusion h
        · split at h
          · exact PowResult.noConfusion h
          · exact PowResult.noConfusion h
  · intro h
    subst h
    rfl

theorem C9_empty_trytes_witness :
    goProofOfWork [] 14 5 = PowResult.invalidTrytesErr ↔ ([] : List Char) = [] :=
  C9_empty_trytes [] 14 5

theorem getD_take_lt {α : Type} (l : List α) (n i : ℕ) (d : α) (h : i < n) :
    (l.take n).getD i d = l.getD i d := by
  rw [List.getD_eq_getElem?_getD, List.getD_eq_getElem?_getD]
  congr 1
  exact List.getElem?_take_of_lt h

theorem getD_drop_add {α : Type} (l : List α) (n i : ℕ) (d : α) :
    (l.drop n).getD i d = l.getD (n + i) d := by
  rw [List.getD_eq_getElem?_getD, List.getD_eq_getElem?_getD]
  congr 1
  exact List.getElem?_drop l n i

theorem getD_append_lt {α : Type} (a b : List α) (i : ℕ) (d : α)
    (h : i < a.length) : (a ++ b).getD i d = a.getD i d := by
  rw [List.getD_eq_getElem?_getD, List.getD_eq_getElem?_getD]
  congr 1
  exact List.getElem?_append_left h

theorem getD_append_ge {α : Type} (a b : List α) (i : ℕ) (d : α)
    (h : a.length ≤ i) : (a ++ b).getD i d = b.getD (i - a.length) d := by
  rw [List.getD_eq_getElem?_getD, List.getD_eq_getElem?_getD]
  congr 1
  exact List.getElem?_append_right h

theorem getD_set_self {α : Type} (l : List α) (k : ℕ) (v d : α)
    (h : k < l.length) : (l.set k v).getD k d = v := by
  rw [List.getD_eq_getElem?_getD, List.getElem?_set_eq (by simpa using h)]
  rfl

theorem getD_set_ne {α : Type} (l : List α) (k i : ℕ) (v d : α)
    (h : k ≠ i) : (l.set k v).getD i d = l.getD i d := by
  rw [List.getD_eq_getElem?_getD, List.getD_eq_getElem?_getD]
  congr 1
  exact List.getElem?_set_ne h

theorem testBit_mask (i : ℕ) : mask.testBit i = decide (i < 64) :=
  Nat.testBit_two_pow_sub_one 64 i

theorem mask_lt : mask < 2 ^ 64 := by decide

theorem xor_or_self (l h : ℕ) : (h ^^^ l) ||| l = h ||| l := by
  apply Nat.eq_of_testBit_eq
  intro i
  simp only [Nat.testBit_or, Nat.testBit_xor]
  cases h.testBit i <;> cases l.testBit i <;> rfl

/-- Word pair invariant of the bit-sliced state: no (0, 0) bit pair, and
both words fit in 64 bits. -/
def goodPair (l h : ℕ) : Prop := l ||| h = mask ∧ l < 2 ^ 64 ∧ h < 2 ^ 64

/-- Whole-state invariant: both sides have StateSize lanes and every lane
pair is good. -/
def goodState (p : List ℕ × List ℕ) : Prop :=
  p.1.length = StateSize ∧ p.2.length = StateSize ∧
    ∀ i < StateSize, goodPair (p.1.getD i 0) (p.2.getD i 0)

theorem goodPair_step {l h : ℕ} (g : goodPair l h) : goodPair (h ^^^ l) l := by
  obtain ⟨g1, g2, g3⟩ := g
  refine ⟨?_, Nat.xor_lt_two_pow g3 g2, g2⟩
  rw [xor_or_self, Nat.or_comm]
  exact g1

theorem wincrAux_stop (ls hs : List ℕ) : wincrAux ls hs 0 = (ls, hs, 0, 0) := by
  cases ls with
  | nil => rfl
  | cons l ls =>
    cases hs with
    | nil => rfl
    | cons h hs => rfl

theorem wincrAux_cons (l h : ℕ) (ls hs : List ℕ) {c : ℕ} (hc : c ≠ 0) :
    wincrAux (l :: ls) (h :: hs) c =
      ((h ^^^ l) :: (wincrAux ls hs (h &&& (l ^^^ mask))).1,
       l :: (wincrAux ls hs (h &&& (l ^^^ mask))).2.1,
       (wincrAux ls hs (h &&& (l ^^^ mask))).2.2.1,
       (wincrAux ls hs (h &&& (l ^^^ mask))).2.2.2 + 1) := by
  rw [wincrAux, if_neg hc]

theorem wincrAux_facts : ∀ (lw hw : List ℕ) (c : ℕ), lw.length = hw.length →
    (∀ i < lw.length, goodPair (lw.getD i 0) (hw.getD i 0)) →
    (wincrAux lw hw c).1.length = lw.length ∧
      (wincrAux lw hw c).2.1.length = lw.length ∧
      (∀ i < lw.length, goodPair ((wincrAux lw hw c).1.getD i 0)
        ((wincrAux lw hw c).2.1.getD i 0)) ∧
      (wincrAux lw hw c).2.2.2 ≤ lw.length := by
  intro lw
  induction lw with
  | nil =>
    intro hw c hlen hg
    cases hw with
    | nil => exact ⟨rfl, rfl, fun i hi => absurd hi (by simp), le_rfl⟩
    | cons h hs => exact absurd hlen (by simp)
  | cons l ls ih =>
    intro hw c hlen hg
    cases hw with
    | nil => exact absurd hlen (by simp)
    | cons h hs =>
      by_cases hc : c = 0
      · subst hc
        rw [wincrAux_stop]
        exact ⟨rfl, by simpa using hlen.symm, hg, by simp⟩
      · rw [wincrAux_cons l h ls hs hc]
        have hlen' : ls.length = hs.length := by simpa using hlen
        have hg' : ∀ i < ls.length, goodPair (ls.getD i 0) (hs.getD i 0) := by
          intro i hi
          have := hg (i + 1) (by simp; omega)
          simpa [List.getD_cons_succ] using this
        obtain ⟨ih1, ih2, ih3, ih4⟩ := ih hs (h &&& (l ^^^ mask)) hlen' hg'
        refine ⟨by simpa using ih1, by simpa using ih2, ?_, by simp; omega⟩
        intro i hi
        cases i with
        | zero =>
          simp only [List.getD_cons_zero]
          have h0 := hg 0 (by simp)
          simp only [List.getD_cons_zero] at h0
          exact goodPair_step h0
        | succ j =>
          simp only [List.getD_cons_succ]
          exact ih3 j (by simpa using hi)

theorem incrWindow_good (s e : ℕ) (hse : s ≤ e) (he : e ≤ StateSize)
    (p : List ℕ × List ℕ) (g : goodState p) : goodState (incrWindow s e p).1 := by
  obtain ⟨g1, g2, g3⟩ := g
  unfold incrWindow
  dsimp only
  set lw := (p.1.drop s).take (e - s) with hlw
  set hw := (p.2.drop s).take (e - s) with hhw
  have hlwlen : lw.length = e - s := by
    rw [hlw, List.length_take, List.length_drop, g1]
    omega
  have hhwlen : hw.length = e - s := by
    rw [hhw, List.length_take, List.length_drop, g2]
    omega
  have hwin : ∀ i < lw.length, goodPair (lw.getD i 0) (hw.getD i 0) := by
    intro i hi
    rw [hlwlen] at hi
    rw [hlw, hhw, getD_take_lt _ _ _ _ hi, getD_drop_add,
      getD_take_lt _ _ _ _ hi, getD_drop_add]
    exact g3 (s + i) (by omega)
  obtain ⟨w1, w2, w3, w4⟩ := wincrAux_facts lw hw 1 (by rw [hlwlen, hhwlen]) hwin
  have hts1 : (p.1.take s).length = s := by
    rw [List.length_take, g1]
    omega
  have hts2 : (p.2.take s).length = s := by
    rw [List.length_take, g2]
    omega
  have hds1 : (p.1.drop e).length = StateSize - e := by rw [List.length_drop, g1]
  have hds2 : (p.2.drop e).length = StateSize - e := by rw [List.length_drop, g2]
  refine ⟨?_, ?_, ?_⟩
  · simp only [List.length_append, hts1, hds1, w1, hlwlen]
    omega
  · simp only [List.length_append, hts2, hds2, w2, hlwlen]
    omega
  · intro i hi
    rcases lt_or_le i s with hz | hz
    · rw [getD_append_lt _ _ _ _ (by rw [List.length_append, hts1, w1]; omega),
        getD_append_lt _ _ _ _ (by rw [hts1]; omega),
        getD_take_lt _ _ _ _ hz,
        getD_append_lt _ _ _ _ (by rw [List.length_append, hts2, w2]; omega),
        getD_append_lt _ _ _ _ (by rw [hts2]; omega),
        getD_take_lt _ _ _ _ hz]
      exact g3 i hi
    · rcases lt_or_le i e with hz2 | hz2
      · rw [getD_append_lt _ _ _ _
            (by rw [List.length_append, hts1, w1, hlwlen]; omega),
          getD_append_ge _ _ _ _ (by rw [hts1]; omega), hts1,
          getD_append_lt _ _ _ _
            (by rw [List.length_append, hts2, w2, hlwlen]; omega),
          getD_append_ge _ _ _ _ (by rw [hts2]; omega), hts2]
        exact w3 (i - s) (by rw [hlwlen]; omega)
      · rw [getD_append_ge _ _ _ _
            (by rw [List.length_append, hts1, w1, hlwlen]; omega),
          getD_append_ge _ _ _ _
            (by rw [List.length_append, hts2, w2, hlwlen]; omega),
          List.length_append, List.length_append, hts1, w1, hlwlen,
          hts2, w2, hlwlen, getD_drop_add, getD_drop_add]
        have hei : e + (i - (s + (e - s))) = i := by omega
        rw [hei]
        exact g3 i hi

theorem para_good (s : List ℤ) (hlen : s.length = StateSize)
    (ht : tritList s) : goodState (para s) := by
  refine ⟨by simpa [para] using hlen, by simpa [para] using hlen, ?_⟩
  intro i hi
  have hi' : i < s.length := by rw [hlen]; exact hi
  have h1 : (para s).1.getD i 0 = paraL (s.getD i 0) := by
    show (s.map paraL).getD i 0 = paraL (s.getD i 0)
    rw [List.getD_eq_getElem _ _ (by simpa using hi'), List.getElem_map,
      List.getD_eq_getElem _ _ hi']
  have h2 : (para s).2.getD i 0 = paraH (s.getD i 0) := by
    show (s.map paraH).getD i 0 = paraH (s.getD i 0)
    rw [List.getD_eq_getElem _ _ (by simpa using hi'), List.getElem_map,
      List.getD_eq_getElem _ _ hi']
  rw [h1, h2]
  have htr := ht (s.getD i 0)
    (by rw [List.getD_eq_getElem _ _ hi']; exact List.getElem_mem hi')
  rcases htr with h | h | h <;> rw [h] <;>
    exact ⟨by decide, by decide, by decide⟩

theorem goodState_set (p : List ℕ × List ℕ) (g : goodState p) (k : ℕ)
    (hk : k < StateSize) (lo hi : ℕ) (hpair : goodPair lo hi) :
    goodState (p.1.set k lo, p.2.set k hi) := by
  obtain ⟨g1, g2, g3⟩ := g
  refine ⟨by simpa using g1, by simpa using g2, ?_⟩
  intro i hi'
  by_cases hik : k = i
  · subst hik
    rw [getD_set_self _ _ _ _ (by rw [g1]; exact hk),
      getD_set_self _ _ _ _ (by rw [g2]; exact hk)]
    exact hpair
  · rw [getD_set_ne _ _ _ _ _ hik, getD_set_ne _ _ _ _ _ hik]
    exact g3 i hi'

theorem applySeeds_good (p : List ℕ × List ℕ) (g : goodState p) :
    goodState (applySeeds p) := by
  unfold applySeeds
  exact goodState_set
    (((p.1.set nonceOffset low0).set (nonceOffset + 1) low1).set
        (nonceOffset + 2) low2,
     ((p.2.set nonceOffset high0).set (nonceOffset + 1) high1).set
        (nonceOffset + 2) high2)
    (goodState_set
      ((p.1.set nonceOffset low0).set (nonceOffset + 1) low1,
       (p.2.set nonceOffset high0).set (nonceOffset + 1) high1)
      (goodState_set (p.1.set nonceOffset low0, p.2.set nonceOffset high0)
        (goodState_set p g nonceOffset (by decide) low0 high0
          ⟨by decide, by decide, by decide⟩)
        (nonceOffset + 1) (by decide) low1 high1
        ⟨by decide, by decide, by decide⟩)
      (nonceOffset + 2) (by decide) low2 high2
      ⟨by decide, by decide, by decide⟩)
    (nonceOffset + 3) (by decide) low3 high3
    ⟨by decide, by decide, by decide⟩

theorem curlIndicesAux_lt : ∀ (f c : ℕ), c < StateSize →
    ∀ x ∈ curlIndicesAux f c, x < StateSize := by
  intro f
  induction f with
  | zero =>
    intro c hc x hx
    exact absurd hx (List.not_mem_nil x)
  | succ k ih =>
    intro c hc x hx
    rw [curlIndicesAux] at hx
    rcases List.mem_cons.mp hx with rfl | hx
    · exact hc
    · have hS : StateSize = 729 := rfl
      refine ih _ ?_ _ hx
      rw [hS] at hc ⊢
      by_cases h365 : c < 365
      · rw [if_pos h365]
        omega
      · rw [if_neg h365]
        omega

theorem curlIndices_getD_lt (j : ℕ) : curlIndices.getD j 0 < StateSize := by
  by_cases hj : j < curlIndices.length
  · rw [List.getD_eq_getElem _ _ hj]
    exact curlIndicesAux_lt _ 0 (by decide) _ (List.getElem_mem hj)
  · rw [List.getD_eq_default _ _ (by omega)]
    decide

/-- The alpha word of a transform64 lane. -/
def alphaFn (p : List ℕ × List ℕ) (j : ℕ) : ℕ :=
  p.1.getD (curlIndices.getD j 0) 0

/-- The gamma word of a transform64 lane. -/
def gammaFn (p : List ℕ × List ℕ) (j : ℕ) : ℕ :=
  p.2.getD (curlIndices.getD (j + 1) 0) 0

/-- The delta word of a transform64 lane. -/
def deltaFn (p : List ℕ × List ℕ) (j : ℕ) : ℕ :=
  (alphaFn p j ||| (gammaFn p j ^^^ mask)) &&&
    ((p.1.getD (curlIndices.getD (j + 1) 0) 0) ^^^
      (p.2.getD (curlIndices.getD j 0) 0))

theorem roundFn_getD1 (p : List ℕ × List ℕ) (i : ℕ) (hi : i < StateSize) :
    (roundFn p).1.getD i 0 = deltaFn p i ^^^ mask := by
  have e1 : (roundFn p).1 = (List.range StateSize).map (fun j =>
      let t1 := curlIndices.getD j 0
      let t2 := curlIndices.getD (j + 1) 0
      let alpha := p.1.getD t1 0
      let beta := p.2.getD t1 0
      let gamma := p.2.getD t2 0
      let delta := (alpha ||| (gamma ^^^ mask)) &&& ((p.1.getD t2 0) ^^^ beta)
      delta ^^^ mask) := rfl
  rw [e1, List.getD_eq_getElem _ _ (by simpa using hi), List.getElem_map,
    List.getElem_range]
  rfl

theorem roundFn_getD2 (p : List ℕ × List ℕ) (i : ℕ) (hi : i < StateSize) :
    (roundFn p).2.getD i 0 = (alphaFn p i ^^^ gammaFn p i) ||| deltaFn p i := by
  have e2 : (roundFn p).2 = (List.range StateSize).map (fun j =>
      let t1 := curlIndices.getD j 0
      let t2 := curlIndices.getD (j + 1) 0
      let alpha := p.1.getD t1 0
      let beta := p.2.getD t1 0
      let gamma := p.2.getD t2 0
      let delta := (alpha ||| (gamma ^^^ mask)) &&& ((p.1.getD t2 0) ^^^ beta)
      (alpha ^^^ gamma) ||| delta) := rfl
  rw [e2, List.getD_eq_getElem _ _ (by simpa using hi), List.getElem_map,
    List.getElem_range]
  rfl

theorem comp_or_delta (a g d : ℕ) (ha : a < 2 ^ 64) (hg : g < 2 ^ 64)
    (hd : d < 2 ^ 64) : (d ^^^ mask) ||| ((a ^^^ g) ||| d) = mask := by
  apply Nat.eq_of_testBit_eq
  intro i
  simp only [Nat.testBit_or, Nat.testBit_xor, testBit_mask]
  rcases lt_or_le i 64 with hi | hi
  · have ht : decide (i < 64) = true := by simpa using hi
    rw [ht]
    cases d.testBit i <;> cases a.testBit i <;> cases g.testBit i <;> rfl
  · have ht : decide (i < 64) = false := by simpa using hi
    have hpow : (2 : ℕ) ^ 64 ≤ 2 ^ i := Nat.pow_le_pow_right (by norm_num) hi
    rw [ht, Nat.testBit_lt_two_pow (lt_of_lt_of_le hd hpow),
      Nat.testBit_lt_two_pow (lt_of_lt_of_le ha hpow),
      Nat.testBit_lt_two_pow (lt_of_lt_of_le hg hpow)]
    rfl

theorem roundFn_good (p : List ℕ × List ℕ) (g : goodState p) :
    goodState (roundFn p) := by
  obtain ⟨g1, g2, g3⟩ := g
  refine ⟨?_, ?_, ?_⟩
  · show ((List.range StateSize).map _).length = StateSize
    rw [List.length_map, List.length_range]
  · show ((List.range StateSize).map _).length = StateSize
    rw [List.length_map, List.length_range]
  · intro i hi
    rw [roundFn_getD1 p i hi, roundFn_getD2 p i hi]
    have hα : alphaFn p i < 2 ^ 64 := (g3 _ (curlIndices_getD_lt i)).2.1
    have hγ : gammaFn p i < 2 ^ 64 := (g3 _ (curlIndices_getD_lt (i + 1))).2.2
    have hβ : p.2.getD (curlIndices.getD i 0) 0 < 2 ^ 64 :=
      (g3 _ (curlIndices_getD_lt i)).2.2
    have hl2 : p.1.getD (curlIndices.getD (i + 1) 0) 0 < 2 ^ 64 :=
      (g3 _ (curlIndices_getD_lt (i + 1))).2.1
    have hδ : deltaFn p i < 2 ^ 64 :=
      Nat.and_lt_two_pow _ (Nat.xor_lt_two_pow hl2 hβ)
    exact ⟨comp_or_delta _ _ _ hα hγ hδ, Nat.xor_lt_two_pow hδ mask_lt,
      Nat.or_lt_two_pow (Nat.xor_lt_two_pow hα hγ) hδ⟩

theorem iterRounds_good : ∀ (n : ℕ) (p : List ℕ × List ℕ),
    goodState p → goodState (iterRounds n p) := by
  intro n
  induction n with
  | zero => exact fun p g => g
  | succ k ih => exact fun p g => ih (roundFn p) (roundFn_good p g)

theorem incrN_good : ∀ (n : ℕ) (p : List ℕ × List ℕ),
    goodState p → goodState (incrN n p) := by
  intro n
  induction n with
  | zero => exact fun p g => g
  | succ k ih =>
    exact fun p g =>
      ih (incrNstep p) (incrWindow_good nonceInitStart nonceIncrementStart (by decide) (by decide) p g)

/-- C6: every lane of the bit-sliced state satisfies L or H = all-ones
(no (0, 0) bit pair, both words 64-bit), after para on a valid 729-trit
state, and the invariant is preserved by the seed-lane overwrites, by
incr, by every incrN step, and by transform64. -/
theorem C6_state_invariant :
    (∀ s : List ℤ, s.length = StateSize → tritList s → goodState (para s)) ∧
      (∀ p, goodState p → goodState (applySeeds p)) ∧
      (∀ p, goodState p → goodState (incr p).1) ∧
      (∀ n p, goodState p → goodState (incrN n p)) ∧
      (∀ p, goodState p → goodState (transform64 p)) :=
  ⟨para_good, applySeeds_good,
    fun p g => incrWindow_good nonceInitStart HashTrinarySize (by decide) (by decide) p g,
    incrN_good,
    fun p g => iterRounds_good NumberOfRounds p g⟩

theorem C6_state_invariant_witness :
    goodState (transform64 (incrN 2
      ((incr (applySeeds (para (List.replicate StateSize (0 : ℤ))))).1))) :=
  C6_state_invariant.2.2.2.2 _
    (C6_state_invariant.2.2.2.1 2 _
      (C6_state_invariant.2.2.1 _
        (C6_state_invariant.2.1 _
          (C6_state_invariant.1 _ (by simp)
            (fun x hx => by
              rw [List.eq_of_mem_replicate hx]
              exact Or.inr (Or.inl rfl))))))

/-- Balanced-ternary +1 on a little-endian trit list: -1 and 0 step up and
stop, 1 wraps to -1 and carries; the flag reports a carry off the end. -/
def tritIncAux : List ℤ → List ℤ × Bool
  | [] => ([], true)
  | t :: ts =>
    if t = 1 then
      let r := tritIncAux ts
      (-1 :: r.1, r.2)
    else ((t + 1) :: ts, false)

/-- The number of lanes the carry loop processes on a uniform window. -/
def incrCount : List ℤ → ℕ
  | [] => 0
  | t :: ts => if t = 1 then incrCount ts + 1 else 1

theorem tritIncAux_cons_one (ts : List ℤ) :
    tritIncAux ((1 : ℤ) :: ts)
      = (-1 :: (tritIncAux ts).1, (tritIncAux ts).2) := by
  rw [tritIncAux, if_pos rfl]

theorem tritIncAux_cons_ne (t : ℤ) (ts : List ℤ) (h : t ≠ 1) :
    tritIncAux (t :: ts) = ((t + 1) :: ts, false) := by
  rw [tritIncAux, if_neg h]

theorem wincr_uniform : ∀ (wts : List ℤ), tritList wts → ∀ c : ℕ, c ≠ 0 →
    (wincrAux (wts.map paraL) (wts.map paraH) c).1
        = (tritIncAux wts).1.map paraL ∧
      (wincrAux (wts.map paraL) (wts.map paraH) c).2.1
        = (tritIncAux wts).1.map paraH ∧
      (wincrAux (wts.map paraL) (wts.map paraH) c).2.2.2 = incrCount wts := by
  intro wts
  induction wts with
  | nil =>
    intro _ c hc
    exact ⟨rfl, rfl, rfl⟩
  | cons t ts ih =>
    intro ht c hc
    have htt := ht t (List.mem_cons_self t ts)
    have hts : tritList ts := fun x hx => ht x (List.mem_cons_of_mem t hx)
    simp only [List.map_cons]
    rw [wincrAux_cons _ _ _ _ hc]
    rcases htt with h | h | h <;> subst h
    · -- t = -1: carry dies
      rw [(by decide : paraH (-1) &&& (paraL (-1) ^^^ mask) = 0),
        wincrAux_stop, tritIncAux_cons_ne _ _ (by decide), incrCount,
        if_neg (by decide)]
      refine ⟨?_, ?_, rfl⟩
      · simp only [List.map_cons]
        rw [(by decide : paraH (-1) ^^^ paraL (-1) = paraL (-1 + 1))]
      · simp only [List.map_cons]
        rw [(by decide : paraL (-1) = paraH (-1 + 1))]
    · -- t = 0: carry dies
      rw [(by decide : paraH 0 &&& (paraL 0 ^^^ mask) = 0),
        wincrAux_stop, tritIncAux_cons_ne _ _ (by decide), incrCount,
        if_neg (by decide)]
      refine ⟨?_, ?_, rfl⟩
      · simp only [List.map_cons]
        rw [(by decide : paraH 0 ^^^ paraL 0 = paraL (0 + 1))]
      · simp only [List.map_cons]
        rw [(by decide : paraL 0 = paraH (0 + 1))]
    · -- t = 1: carry propagates
      rw [(by decide : paraH 1 &&& (paraL 1 ^^^ mask) = mask)]
      obtain ⟨ih1, ih2, ih3⟩ := ih hts mask (by decide)
      rw [tritIncAux_cons_one, incrCount, if_pos rfl]
      refine ⟨?_, ?_, ?_⟩
      · simp only [List.map_cons]
        rw [ih1, (by decide : paraH 1 ^^^ paraL 1 = paraL (-1))]
      · simp only [List.map_cons]
        rw [ih2, (by decide : paraL 1 = paraH (-1))]
      · rw [ih3]

theorem tritIncAux_facts : ∀ (wts : List ℤ), tritList wts →
    (tritIncAux wts).1.length = wts.length ∧
      tritList (tritIncAux wts).1 ∧
      (tritIncAux wts).2 = wts.all (fun t => t == 1) ∧
      pureVal (tritIncAux wts).1
        = pureVal wts + 1
          - (if (tritIncAux wts).2 then (3 : ℤ) ^ wts.length else 0) := by
  intro wts
  induction wts with
  | nil =>
    intro _
    exact ⟨rfl, fun x hx => absurd hx (List.not_mem_nil x), rfl, by decide⟩
  | cons t ts ih =>
    intro ht
    have htt := ht t (List.mem_cons_self t ts)
    have hts : tritList ts := fun x hx => ht x (List.mem_cons_of_mem t hx)
    by_cases h1 : t = 1
    · subst h1
      obtain ⟨ih1, ih2, ih3, ih4⟩ := ih hts
      rw [tritIncAux_cons_one]
      refine ⟨by simpa using ih1, ?_, ?_, ?_⟩
      · intro x hx
        rcases List.mem_cons.mp hx with rfl | hx
        · exact Or.inl rfl
        · exact ih2 x hx
      · rw [List.all_cons, ih3]
        rfl
      · rw [pureVal_cons, pureVal_cons, ih4, List.length_cons]
        cases hfl : (tritIncAux ts).2 with
        | false =>
          rw [if_neg Bool.false_ne_true, if_neg Bool.false_ne_true]
          ring
        | true =>
          rw [if_pos rfl, if_pos rfl]
          ring
    · rw [tritIncAux_cons_ne _ _ h1]
      refine ⟨rfl, ?_, ?_, ?_⟩
      · intro x hx
        rcases List.mem_cons.mp hx with rfl | hx
        · rcases htt with h | h | h
          · rw [h]
            decide
          · rw [h]
            decide
          · exact absurd h h1
        · exact hts x hx
      · rw [List.all_cons]
        have : (t == 1) = false := by
          simpa using h1
        rw [this]
        rfl
      · rw [pureVal_cons, pureVal_cons, if_neg Bool.false_ne_true]
        ring

theorem decode_para (t : ℤ) (ht : isTrit t) (n : ℕ) (hn : n < 64) :
    decodeTrit ((paraL t >>> n) &&& 1) ((paraH t >>> n) &&& 1) = t := by
  have hmask : (mask >>> n) &&& 1 = 1 := by
    rw [Nat.shiftRight_eq_div_pow, Nat.and_one_is_mod]
    have h1 : mask.testBit n = true := by
      rw [testBit_mask]
      simpa using hn
    rw [Nat.testBit_to_div_mod] at h1
    exact of_decide_eq_true h1
  have hzero : ((0 : ℕ) >>> n) &&& 1 = 0 := by
    rw [Nat.zero_shiftRight]
    rfl
  rcases ht with h | h | h <;> subst h
  · rw [(by decide : paraL (-1) = mask), (by decide : paraH (-1) = 0),
      hmask, hzero]
    decide
  · rw [(by decide : paraL 0 = mask), (by decide : paraH 0 = mask), hmask]
    decide
  · rw [(by decide : paraL 1 = 0), (by decide : paraH 1 = mask),
      hmask, hzero]
    decide

theorem decodeWindow_uniform (p : List ℕ × List ℕ) (wts : List ℤ)
    (hw : wts.length = 77) (ht : tritList wts)
    (hL : (p.1.drop nonceInitStart).take 77 = wts.map paraL)
    (hH : (p.2.drop nonceInitStart).take 77 = wts.map paraH)
    (n : ℕ) (hn : n < 64) :
    decodeWindow p n = wts := by
  have e0 : decodeWindow p n
      = (List.range (HashTrinarySize - nonceInitStart)).map
        (fun k => decodeTrit ((p.1.getD (nonceInitStart + k) 0 >>> n) &&& 1)
          ((p.2.getD (nonceInitStart + k) 0 >>> n) &&& 1)) := rfl
  have h77 : HashTrinarySize - nonceInitStart = 77 := rfl
  apply List.ext_getElem
  · rw [e0, List.length_map, List.length_range, h77, hw]
  · intro i h1 h2
    have hi77 : i < 77 := by
      rw [hw] at h2
      exact h2
    rw [List.getElem_of_eq e0 h1, List.getElem_map, List.getElem_range]
    have hgl : p.1.getD (nonceInitStart + i) 0 = paraL (wts.get ⟨i, h2⟩) := by
      have hc := congrArg (fun l => l.getD i 0) hL
      dsimp only at hc
      rw [getD_take_lt _ _ _ _ hi77, getD_drop_add] at hc
      rw [hc, List.getD_eq_getElem _ _ (by rw [List.length_map]; omega),
        List.getElem_map]
      rfl
    have hgh : p.2.getD (nonceInitStart + i) 0 = paraH (wts.get ⟨i, h2⟩) := by
      have hc := congrArg (fun l => l.getD i 0) hH
      dsimp only at hc
      rw [getD_take_lt _ _ _ _ hi77, getD_drop_add] at hc
      rw [hc, List.getD_eq_getElem _ _ (by rw [List.length_map]; omega),
        List.getElem_map]
      rfl
    rw [hgl, hgh]
    exact decode_para _ (ht _ (List.get_mem wts i h2)) n hn

set_option maxRecDepth 8000 in
/-- C7 refutation: on a window that is not bit-uniform, the carry word is
driven by bit 0 alone, so lanes carrying at bit 0 are rewritten at every
other bit position as well; at bit position 1 the decoded window of the
incremented state is not the decoded original plus one. -/
theorem C7_counterexample :
    pureVal (decodeWindow (incr
        ((List.replicate 729 mask).set 166 (mask - 1),
          List.replicate 729 mask)).1 1)
      ≠ pureVal (decodeWindow
        ((List.replicate 729 mask).set 166 (mask - 1),
          List.replicate 729 mask) 1) + 1 := by decide

/-- C7 (amended): on a bit-uniform window that encodes the trit list wts
on every bit position, one incr step adds one to the balanced-ternary
value of the window at every bit position simultaneously, wrapping by
3^77 when the window is all ones. -/
theorem C7_increment (p : List ℕ × List ℕ) (wts : List ℤ)
    (hw : wts.length = 77) (ht : tritList wts)
    (hL : (p.1.drop nonceInitStart).take 77 = wts.map paraL)
    (hH : (p.2.drop nonceInitStart).take 77 = wts.map paraH)
    (hlen1 : p.1.length = StateSize) (hlen2 : p.2.length = StateSize)
    (n : ℕ) (hn : n < 64) :
    pureVal (decodeWindow (incr p).1 n)
      = pureVal (decodeWindow p n) + 1
        - (if wts.all (fun t => t == 1) then (3 : ℤ) ^ 77 else 0) := by
  obtain ⟨f1, f2, f3, f4⟩ := tritIncAux_facts wts ht
  obtain ⟨u1, u2, u3⟩ := wincr_uniform wts ht 1 one_ne_zero
  have hdw0 : decodeWindow p n = wts :=
    decodeWindow_uniform p wts hw ht hL hH n hn
  have h77 : HashTrinarySize - nonceInitStart = 77 := rfl
  have hta : (p.1.take nonceInitStart).length = nonceInitStart := by
    rw [List.length_take, hlen1]
    decide
  have e1 : (incr p).1.1 = p.1.take nonceInitStart ++
      (wincrAux ((p.1.drop nonceInitStart).take
          (HashTrinarySize - nonceInitStart))
        ((p.2.drop nonceInitStart).take
          (HashTrinarySize - nonceInitStart)) 1).1 ++
      p.1.drop HashTrinarySize := rfl
  have e2 : (incr p).1.2 = p.2.take nonceInitStart ++
      (wincrAux ((p.1.drop nonceInitStart).take
          (HashTrinarySize - nonceInitStart))
        ((p.2.drop nonceInitStart).take
          (HashTrinarySize - nonceInitStart)) 1).2.1 ++
      p.2.drop HashTrinarySize := rfl
  have hwl1 : ((tritIncAux wts).1.map paraL).length = 77 := by
    rw [List.length_map, f1, hw]
  have hwl2 : ((tritIncAux wts).1.map paraH).length = 77 := by
    rw [List.length_map, f1, hw]
  have hL' : ((incr p).1.1.drop nonceInitStart).take 77
      = (tritIncAux wts).1.map paraL := by
    rw [e1, h77, hL, hH, u1, List.append_assoc, List.drop_left' hta,
      List.take_left' hwl1]
  have htb : (p.2.take nonceInitStart).length = nonceInitStart := by
    rw [List.length_take, hlen2]
    decide
  have hH' : ((incr p).1.2.drop nonceInitStart).take 77
      = (tritIncAux wts).1.map paraH := by
    rw [e2, h77, hL, hH, u2, List.append_assoc, List.drop_left' htb,
      List.take_left' hwl2]
  have hdw1 : decodeWindow (incr p).1 n = (tritIncAux wts).1 :=
    decodeWindow_uniform (incr p).1 (tritIncAux wts).1
      (by rw [f1, hw]) f2 hL' hH' n hn
  rw [hdw0, hdw1, f4, f3, hw]

theorem C7_increment_witness :
    pureVal (decodeWindow (incr (para (List.replicate 729 (0 : ℤ)))).1 0)
      = pureVal (decodeWindow (para (List.replicate 729 (0 : ℤ))) 0) + 1
        - (if (List.replicate 77 (0 : ℤ)).all (fun t => t == 1)
           then (3 : ℤ) ^ 77 else 0) :=
  C7_increment (para (List.replicate 729 (0 : ℤ))) (List.replicate 77 0)
    (by simp)
    (fun x hx => by
      rw [List.eq_of_mem_replicate hx]
      exact Or.inr (Or.inl rfl))
    (by
      rw [show (para (List.replicate 729 (0 : ℤ))).1
          = List.replicate 729 (paraL 0) from by
        rw [show (para (List.replicate 729 (0 : ℤ))).1
            = (List.replicate 729 (0 : ℤ)).map paraL from rfl,
          List.map_replicate]]
      rw [show nonceInitStart = 166 from rfl, List.drop_replicate,
        List.take_replicate, List.map_replicate]
      norm_num)
    (by
      rw [show (para (List.replicate 729 (0 : ℤ))).2
          = List.replicate 729 (paraH 0) from by
        rw [show (para (List.replicate 729 (0 : ℤ))).2
            = (List.replicate 729 (0 : ℤ)).map paraH from rfl,
          List.map_replicate]]
      rw [show nonceInitStart = 166 from rfl, List.drop_replicate,
        List.take_replicate, List.map_replicate]
      norm_num)
    (by
      rw [show (para (List.replicate 729 (0 : ℤ))).1
          = (List.replicate 729 (0 : ℤ)).map paraL from rfl,
        List.length_map, List.length_replicate]
      rfl)
    (by
      rw [show (para (List.replicate 729 (0 : ℤ))).2
          = (List.replicate 729 (0 : ℤ)).map paraH from rfl,
        List.length_map, List.length_replicate]
      rfl)
    0 (by decide)

theorem incrCount_last : ∀ (wts : List ℤ), wts ≠ [] →
    (incrCount wts = wts.length ↔
      wts.dropLast.all (fun t => t == 1) = true) := by
  intro wts
  induction wts with
  | nil =>
    intro h
    exact absurd rfl h
  | cons t ts ih =>
    intro _
    cases ts with
    | nil =>
      constructor
      · intro _
        rfl
      · intro _
        by_cases h1 : t = 1
        · rw [incrCount, if_pos h1]
          rfl
        · rw [incrCount, if_neg h1]
          rfl
    | cons u us =>
      rw [List.dropLast_cons₂, List.all_cons]
      by_cases h1 : t = 1
      · subst h1
        rw [incrCount, if_pos rfl]
        have ihh := ih (by simp)
        constructor
        · intro h
          have hcnt : incrCount (u :: us) = (u :: us).length := by
            simp only [List.length_cons] at h ⊢
            omega
          rw [ihh.mp hcnt]
          rfl
        · intro h
          simp only [Bool.and_eq_true] at h
          have := ihh.mpr h.2
          simp only [List.length_cons] at this ⊢
          omega
      · rw [incrCount, if_neg h1]
        constructor
        · intro h
          exfalso
          simp only [List.length_cons] at h
          omega
        · intro h
          simp only [Bool.and_eq_true] at h
          exact absurd (by simpa using h.1) h1

set_option maxRecDepth 8000 in
/-- C8 refutation: a state whose window encodes 76 ones followed by a zero
makes incr return true (the loop index reaches HashTrinarySize), yet the
carry word after the final lane was processed is zero, so the return value
does not signal a carry off the top of the nonce field. -/
theorem C8_counterexample :
    (incr (List.replicate 166 mask ++ List.replicate 76 (0 : ℕ) ++
        List.replicate 487 mask, List.replicate 729 mask)).2 = true ∧
      (incrWindow nonceInitStart HashTrinarySize
        (List.replicate 166 mask ++ List.replicate 76 (0 : ℕ) ++
          List.replicate 487 mask, List.replicate 729 mask)).2.1 = 0 := by
  refine ⟨by decide, by decide⟩

/-- C8 (amended): on a bit-uniform window encoding the trit list wts, incr
returns true exactly when the 76 trits below the top lane are all ones:
the final lane is always processed once reached, and its outgoing carry is
not consulted. -/
theorem C8_rollover (p : List ℕ × List ℕ) (wts : List ℤ)
    (hw : wts.length = 77) (ht : tritList wts)
    (hL : (p.1.drop nonceInitStart).take 77 = wts.map paraL)
    (hH : (p.2.drop nonceInitStart).take 77 = wts.map paraH) :
    ((incr p).2 = true ↔ wts.dropLast.all (fun t => t == 1) = true) := by
  obtain ⟨u1, u2, u3⟩ := wincr_uniform wts ht 1 one_ne_zero
  have h77 : HashTrinarySize - nonceInitStart = 77 := rfl
  have e2 : (incr p).2
      = ((wincrAux ((p.1.drop nonceInitStart).take
            (HashTrinarySize - nonceInitStart))
          ((p.2.drop nonceInitStart).take
            (HashTrinarySize - nonceInitStart)) 1).2.2.2
        == HashTrinarySize - nonceInitStart) := rfl
  rw [e2, h77, hL, hH, u3, beq_iff_eq]
  have hne : wts ≠ [] := by
    intro hc
    rw [hc] at hw
    simp at hw
  have hiff := incrCount_last wts hne
  rw [hw] at hiff
  exact hiff

theorem C8_rollover_witness :
    ((incr (para (List.replicate 729 (0 : ℤ)))).2 = true ↔
      (List.replicate 77 (0 : ℤ)).dropLast.all (fun t => t == 1) = true) :=
  C8_rollover (para (List.replicate 729 (0 : ℤ))) (List.replicate 77 0)
    (by simp)
    (fun x hx => by
      rw [List.eq_of_mem_replicate hx]
      exact Or.inr (Or.inl rfl))
    (by
      rw [show (para (List.replicate 729 (0 : ℤ))).1
          = List.replicate 729 (paraL 0) from by
        rw [show (para (List.replicate 729 (0 : ℤ))).1
            = (List.replicate 729 (0 : ℤ)).map paraL from rfl,
          List.map_replicate]]
      rw [show nonceInitStart = 166 from rfl, List.drop_replicate,
        List.take_replicate, List.map_replicate]
      norm_num)
    (by
      rw [show (para (List.replicate 729 (0 : ℤ))).2
          = List.replicate 729 (paraH 0) from by
        rw [show (para (List.replicate 729 (0 : ℤ))).2
            = (List.replicate 729 (0 : ℤ)).map paraH from rfl,
          List.map_replicate]]
      rw [show nonceInitStart = 166 from rfl, List.drop_replicate,
        List.take_replicate, List.map_replicate]
      norm_num)

end Iota
